import Mathlib

/-!
# ClusteringSegmentation: the merge accumulator of `clusteringCombine`

A shallow embedding of the parts of `ClusteringSegmentationMain.cpp` and
`OpenCVUtil.h` that build the inside-out tag order, accumulate the composite
label raster `mergeMat`, backfill it and decide on the final re-parse, of the
stage sequence of `clusteringCombine` and `main`, and of the block grid, the
initial tags, the quantized-colour count table, the containment scan, the
region selection and the expanding region of interest of
`ClusteringSegmentation.cpp`.

Conventions of the embedding:

* `cv::Mat` is a record of `rows`, `cols` and a pixel function addressed
  `(y, x)` like `Mat::at`; only in-bounds pixels are meaningful.
* `uint8_t` is `Fin 256`; `uint32_t` is `Nat` reduced modulo `2^32`;
  `int32_t` is `Int`.
* `assert(0)` is modelled for a build with assertions enabled: it stops the
  run, and the state reached at that moment is kept in the outcome.  A crop
  `inputImg(roi)` whose rectangle does not lie inside the image throws; no
  code catches the exception, so it stops the run in the same way.
* Collaborators whose code is not part of the sources (`captureRegionMask`,
  `SuperpixelImage::parse`, `my_adler32`, `Superpixel::bbox`,
  `findRegionCenter`, `expandWhiteInRegion`) are parameters of the
  definitions; `srmTags` is not modified while the composite is accumulated.
* The tree walk `recurseSuperpixelIterate` and the resolver
  `recurseSuperpixelContainment` are modelled from the specification (in the
  stage sequence of `clusteringCombine` the resolver is a parameter), and so
  are the region graph (`SuperpixelImage`, its `parse` and
  `mergeIdenticalSuperpixels`) and the Adler-32 routine used in the concrete
  evaluations.
* `std::set<int32_t>` is the ascending list of its elements.
* Image sizes and pixel coordinates are natural numbers.  The `int` product
  in the two block-grid assertions is reduced to 32 bits; elsewhere `int`
  arithmetic is taken as exact.
-/

namespace ClusteringSegmentation

/-! ## Pixels and rasters -/

/-- An unsigned byte (`uint8_t`, `uchar`). -/
abbrev UChar := Fin 256

/-- The OpenCV pixel type `Vec3b`: three bytes, indexed `[0]`, `[1]`, `[2]`
(blue, green, red). -/
structure Vec3b where
  v0 : UChar
  v1 : UChar
  v2 : UChar
deriving DecidableEq

/-- The raster location type `cv::Point` / `Coord`: column `x`, row `y`. -/
structure Point where
  x : Nat
  y : Nat
deriving DecidableEq

/-- A raster (`cv::Mat`) with element type `α`. -/
structure Mat (α : Type) where
  rows : Nat
  cols : Nat
  px : Nat → Nat → α

/-- Element read, `m.at<T>(y, x)`. -/
def Mat.get {α : Type} (m : Mat α) (y x : Nat) : α := m.px y x

/-- Element write, `m.at<T>(y, x) = v`. -/
def Mat.put {α : Type} (m : Mat α) (y x : Nat) (v : α) : Mat α :=
  { m with px := fun y1 x1 => if y1 = y ∧ x1 = x then v else m.px y1 x1 }

/-- Whole-raster assignment of a constant, `m = Scalar(...)`, for a raster
allocated with the given size. -/
def Mat.filled {α : Type} (rows cols : Nat) (v : α) : Mat α :=
  { rows := rows, cols := cols, px := fun _ _ => v }

/-- The coordinates visited by
`for (y = 0; y < rows; y++) for (x = 0; x < cols; x++)`, in visiting order. -/
def scanOrder (rows cols : Nat) : List Point :=
  (List.range rows).flatMap (fun y => (List.range cols).map (fun x => Point.mk x y))

/-- Conversion `(int32_t) u` of a 32-bit unsigned value. -/
def toInt32 (u : Nat) : Int :=
  if u % 2 ^ 32 < 2 ^ 31 then ((u % 2 ^ 32 : Nat) : Int) else ((u % 2 ^ 32 : Nat) : Int) - 2 ^ 32

/-- Conversion `(uint32_t) i` of a 32-bit signed value. -/
def toUInt32 (i : Int) : Nat := (i % 2 ^ 32).toNat

/-- `Vec3BToUID` of `OpenCVUtil.h`: the bytes of a pixel packed into a signed
32-bit tag. -/
def Vec3BToUID (tag : Vec3b) : Int :=
  let B : Nat := tag.v0.val
  let G : Nat := tag.v1.val
  let R : Nat := tag.v2.val
  let tagVal : Nat := ((R <<< 16) ||| (G <<< 8) ||| B) % 2 ^ 32
  toInt32 tagVal

/-- `PixelToVec3b` of `OpenCVUtil.h`: the three low bytes of a 32-bit pixel. -/
def PixelToVec3b (pixel : Nat) : Vec3b :=
  let B : Nat := pixel &&& 0xFF
  let G : Nat := (pixel >>> 8) &&& 0xFF
  let R : Nat := (pixel >>> 16) &&& 0xFF
  Vec3b.mk (Fin.ofNat B) (Fin.ofNat G) (Fin.ofNat R)

/-- The test `vec[0] == 0x0 && vec[1] == 0x0 && vec[2] == 0x0` used by the
commit loop and by the backfill. -/
def isUnset (vec : Vec3b) : Bool :=
  vec.v0 == 0 && vec.v1 == 0 && vec.v2 == 0

/-! ## The already-committed mask (lines 284-298) -/

/-- Body of the mask loop for one pixel. -/
def copyMergeToMaskAt (mergeMat : Mat Vec3b) (maskMat : Mat UChar) (p : Point) : Mat UChar :=
  let vec := mergeMat.get p.y p.x
  let pixel : Nat := toUInt32 (Vec3BToUID vec)
  let bval : UChar := if pixel = 0x0 then 0 else 0xFF
  maskMat.put p.y p.x bval

/-- The loop "Copy current merge mask state into mask". -/
def copyMergeToMask (mergeMat : Mat Vec3b) (maskMat : Mat UChar) : Mat UChar :=
  (scanOrder mergeMat.rows mergeMat.cols).foldl (copyMergeToMaskAt mergeMat) maskMat

/-! ## The per-tag commit step (lines 278-378) -/

/-- Outcome of a run that may stop at `assert(0)` or at a failed OpenCV check
(an exception that nothing catches): either the run went through, or it
stopped in the given state. -/
inductive Outcome (α : Type) where
  | finished (a : α)
  | assertFailed (a : α)

/-- The state carried by an outcome. -/
def Outcome.state {α : Type} : Outcome α → α
  | .finished a => a
  | .assertFailed a => a

/-- A loop `for (b : bs) { body }` whose body may fail an assertion. -/
def forEach {α β : Type} (body : α → β → Outcome α) : α → List β → Outcome α
  | a, [] => .finished a
  | a, b :: bs =>
    match body a b with
    | .finished a1 => forEach body a1 bs
    | .assertFailed a1 => .assertFailed a1

/-- State of the merge accumulator.  `env` stands for whatever state the
collaborator `captureRegionMask` reads and updates (`spImage`, ...).
`written` is a ghost trace, not a program variable: the coordinates of the
assignments `mergeMat.at<Vec3b>(y, x) = vec` executed so far, oldest first. -/
structure Accum (σ : Type) where
  mergeMat : Mat Vec3b
  maskMat : Mat UChar
  env : σ
  written : List Point

/-- What one call of `captureRegionMask` hands back: its boolean result, the
contents it leaves in the caller's `maskMat` buffer, and its own state. -/
structure Capture (σ : Type) where
  maskWritten : Bool
  mask : Nat → Nat → UChar
  env : σ

/-- The collaborator `captureRegionMask(spImage, inputImg, srmTags, tag, ...,
maskMat, blockBasedQuantMat)`, seen from the accumulator: a function of its own
state, the tag and the mask it is given.  It does not receive `mergeMat`. -/
abbrev CaptureRegionMask (σ : Type) := σ → Int → Mat UChar → Capture σ

/-- OpenCV `findNonZero(maskMat, locations)`: the nonzero pixels in scan order. -/
def findNonZero (maskMat : Mat UChar) : List Point :=
  (scanOrder maskMat.rows maskMat.cols).filter (fun p => maskMat.get p.y p.x != 0)

/-- The constant `allowReplaceWithSameTag` of line 352. -/
def allowReplaceWithSameTag : Bool := false

/-- Body of the loop `for (Point p : locations)` (lines 318-364).  The
`#if defined(DEBUG)` consistency assertions of lines 333-342 are left out. -/
def commitAt {σ : Type} (srmTags : Mat Vec3b) (st : Accum σ) (p : Point) : Outcome (Accum σ) :=
  let x := p.x
  let y := p.y
  let vec := st.mergeMat.get y x
  if isUnset vec then
    let vec := srmTags.get y x
    .finished { st with mergeMat := st.mergeMat.put y x vec, written := st.written ++ [p] }
  else
    let mergedTag : Nat := toUInt32 (Vec3BToUID vec)
    let vec := srmTags.get y x
    let toBeMergedTag : Nat := toUInt32 (Vec3BToUID vec)
    if allowReplaceWithSameTag then
      if mergedTag ≠ toBeMergedTag then .assertFailed st else .finished st
    else
      .assertFailed st

/-- The loop over `locations`. -/
def commitLocations {σ : Type} (srmTags : Mat Vec3b) (st : Accum σ) (locations : List Point) :
    Outcome (Accum σ) :=
  forEach (commitAt srmTags) st locations

/-- The mask handed to `captureRegionMask` in a per-tag step. -/
def maskBeforeCapture {σ : Type} (st : Accum σ) : Mat UChar :=
  copyMergeToMask st.mergeMat st.maskMat

/-- The state right after `captureRegionMask` returned in a per-tag step. -/
def afterCapture {σ : Type} (capture : CaptureRegionMask σ) (st : Accum σ) (tag : Int) :
    Bool × Accum σ :=
  let maskMat := maskBeforeCapture st
  let cap := capture st.env tag maskMat
  (cap.maskWritten, { st with maskMat := { maskMat with px := cap.mask }, env := cap.env })

/-- One iteration of `for (int32_t tag : srmInsideOutOrder)`. -/
def perTagStep {σ : Type} (capture : CaptureRegionMask σ) (srmTags : Mat Vec3b)
    (st : Accum σ) (tag : Int) : Outcome (Accum σ) :=
  let r := afterCapture capture st tag
  let maskWritten := r.1
  let st1 := r.2
  if maskWritten then
    let locations := findNonZero st1.maskMat
    commitLocations srmTags st1 locations
  else
    .finished st1

/-- The whole loop over `srmInsideOutOrder`. -/
def walkTags {σ : Type} (capture : CaptureRegionMask σ) (srmTags : Mat Vec3b)
    (st : Accum σ) (srmInsideOutOrder : List Int) : Outcome (Accum σ) :=
  forEach (perTagStep capture srmTags) st srmInsideOutOrder

/-- Body of the backfill loop (lines 383-401) for one pixel, recording the
write in the ghost trace. -/
def backfillStateAt {σ : Type} (srmTags : Mat Vec3b) (st : Accum σ) (p : Point) : Accum σ :=
  let vec := st.mergeMat.get p.y p.x
  if isUnset vec then
    let vec := srmTags.get p.y p.x
    { st with mergeMat := st.mergeMat.put p.y p.x vec, written := st.written ++ [p] }
  else
    st

/-- The backfill loop "Copy any pixel from srmTags unless mergeMat is set to a
non-zero value already". -/
def backfillState {σ : Type} (srmTags : Mat Vec3b) (st : Accum σ) : Accum σ :=
  (scanOrder srmTags.rows srmTags.cols).foldl (backfillStateAt srmTags) st

/-- The accumulator state at line 252: `maskMat` allocated (contents
indeterminate, given by `garbage`), `mergeMat` allocated and set to
`Scalar(0, 0, 0)`; both have the size of the input image. -/
def initialAccum {σ : Type} (rows cols : Nat) (garbage : Nat → Nat → UChar) (env : σ) : Accum σ :=
  { mergeMat := Mat.filled rows cols (Vec3b.mk 0 0 0)
    maskMat := { rows := rows, cols := cols, px := garbage }
    env := env
    written := [] }

/-- Accumulation: the walk over the tags followed, when no assertion failed, by
the backfill. -/
def accumulateFrom {σ : Type} (capture : CaptureRegionMask σ) (srmTags : Mat Vec3b)
    (st : Accum σ) (srmInsideOutOrder : List Int) : Outcome (Accum σ) :=
  match walkTags capture srmTags st srmInsideOutOrder with
  | .finished st1 => .finished (backfillState srmTags st1)
  | .assertFailed st1 => .assertFailed st1

/-- Accumulation from the initial state. -/
def accumulate {σ : Type} (capture : CaptureRegionMask σ) (srmTags : Mat Vec3b)
    (rows cols : Nat) (garbage : Nat → Nat → UChar) (env : σ) (srmInsideOutOrder : List Int) :
    Outcome (Accum σ) :=
  accumulateFrom capture srmTags (initialAccum rows cols garbage env) srmInsideOutOrder

/-! ## The checksum short-circuit (lines 258-266 and 413-437) -/

/-- The four bytes read through `(unsigned char const *)&pixel` for a 32-bit
`pixel`, lowest byte first (little-endian host). -/
def pixelBytes (pixel : Nat) : List UChar :=
  [Fin.ofNat (pixel % 256), Fin.ofNat (pixel / 2 ^ 8 % 256),
   Fin.ofNat (pixel / 2 ^ 16 % 256), Fin.ofNat (pixel / 2 ^ 24 % 256)]

/-- The checksum loop shared by lines 260-266 and 415-421: fold
`my_adler32(acc, (unsigned char const *)&pixel, sizeof(uint32_t), 0)` over the
decoded pixels of raster `m` in scan order, starting from `0`.  The checksum
routine `my_adler32` is a parameter. -/
def tagsAdler (my_adler32 : Nat → List UChar → Nat) (m : Mat Vec3b) : Nat :=
  (scanOrder m.rows m.cols).foldl
    (fun acc p =>
      let vec := m.get p.y p.x
      let pixel : Nat := toUInt32 (Vec3BToUID vec)
      my_adler32 acc (pixelBytes pixel))
    0

/-- The value of `tagsAdlerBeforeMerge` (lines 258-266): the loop reads
`srmTags`. -/
def tagsAdlerBeforeMerge (my_adler32 : Nat → List UChar → Nat) (srmTags : Mat Vec3b) : Nat :=
  tagsAdler my_adler32 srmTags

/-- The value of `tagsAdlerAfterMerge` (lines 413-421) when the loop is reached
with rasters `srmTags` and `mergeMat`: the loop reads `srmTags.rows`,
`srmTags.cols` and `srmTags.at<Vec3b>(y, x)`; `mergeMat` is not read. -/
def tagsAdlerAfterMerge (my_adler32 : Nat → List UChar → Nat) (srmTags : Mat Vec3b)
    (_mergeMat : Mat Vec3b) : Nat :=
  tagsAdler my_adler32 srmTags

/-- What lines 425-437 do with the working region graph. -/
inductive Reparse (G : Type) where
  | skipped (spImage : G)
  | reparsed (spImage : G)
  | parseFailed

/-- Lines 425-437: keep `spImage` when the two checksums are equal, otherwise
replace it by `SuperpixelImage::parse(mergeMat, ...)`, given as the parameter
`parse` (`none` when it returns false). -/
def reparseIfChanged {G : Type} (my_adler32 : Nat → List UChar → Nat)
    (parse : Mat Vec3b → Option G) (tagsBefore : Mat Vec3b) (srmTags mergeMat : Mat Vec3b)
    (spImage : G) : Reparse G :=
  if tagsAdlerBeforeMerge my_adler32 tagsBefore = tagsAdlerAfterMerge my_adler32 srmTags mergeMat then
    .skipped spImage
  else
    match parse mergeMat with
    | some fresh => .reparsed fresh
    | none => .parseFailed

/-- Modelled from the spec: `my_adler32` is not part of the sources; the spec
calls it a rolling Adler-32 content checksum.  This is Adler-32 continued from
a previous value: the low half is the running byte sum, the high half the
running sum of the low halves, both modulo 65521. -/
def adler32 (adler : Nat) (buf : List UChar) : Nat :=
  let r := buf.foldl
    (fun (s : Nat × Nat) (byte : UChar) =>
      let a := (s.1 + byte.val) % 65521
      (a, (s.2 + a) % 65521))
    (adler % 65536, adler / 65536 % 65536)
  r.2 * 65536 + r.1

/-- The merge block of `clusteringCombine` (lines 247-443) from a given
accumulator state: checksum before, accumulation, checksum after, re-parse
decision.  `none` stands for the run stopped by a failed assertion. -/
def mergeBlock {σ G : Type} (my_adler32 : Nat → List UChar → Nat)
    (parse : Mat Vec3b → Option G) (capture : CaptureRegionMask σ) (srmTags : Mat Vec3b)
    (rows cols : Nat) (garbage : Nat → Nat → UChar) (env : σ) (srmInsideOutOrder : List Int)
    (spImage : G) : Option (Mat Vec3b × Reparse G) :=
  match accumulate capture srmTags rows cols garbage env srmInsideOutOrder with
  | .finished st =>
    some (st.mergeMat, reparseIfChanged my_adler32 parse srmTags srmTags st.mergeMat spImage)
  | .assertFailed _ => none

/-! ## The inside-out order (lines 205-241) -/

/-- The container `unordered_map<int32_t, vector<int32_t>>`, as its list of
entries. -/
abbrev TreeMap := List (Int × List Int)

/-- The keys of the map. -/
def TreeMap.keys (map : TreeMap) : List Int := map.map Prod.fst

/-- Read access `map[tag]`: the stored vector, or an empty vector when the key
is absent. -/
def TreeMap.children (map : TreeMap) (tag : Int) : List Int :=
  (map.lookup tag).getD []

/-- Modelled from the spec: `recurseSuperpixelIterate` is not part of the
sources.  Per the spec it walks the tree depth-first from the given root tags
and calls the visitor with each node and its children on entry to the node,
before descending into the children.  `depth` bounds the recursion depth;
`none` means the bound was hit. -/
def recurseSuperpixelIterate {S : Type} (map : TreeMap) (f : S → Int → List Int → S) :
    Nat → List Int → S → Option S
  | 0, _, _ => none
  | depth + 1, tags, s =>
    tags.foldlM
      (fun s1 tag =>
        let children := map.children tag
        recurseSuperpixelIterate map f depth children (f s1 tag children))
      s

/-- The visitor `lambdaFunc` of lines 222-226: push the tag on
`insideOutStack` (top of the stack is the head of the list). -/
def lambdaFunc (insideOutStack : List Int) (tag : Int) (_children : List Int) : List Int :=
  tag :: insideOutStack

/-- The loop of lines 234-241: pop the stack until it is empty, appending each
popped tag to `srmInsideOutOrder`. -/
def popAll : List Int → List Int → List Int
  | [], srmInsideOutOrder => srmInsideOutOrder
  | tag :: insideOutStack, srmInsideOutOrder => popAll insideOutStack (srmInsideOutOrder ++ [tag])

/-- The value of `srmInsideOutOrder` after lines 219-241, for the map and root
list returned by the resolver. -/
def insideOutOrder (depth : Nat) (containsTreeMap : TreeMap) (rootTags : List Int) :
    Option (List Int) :=
  match recurseSuperpixelIterate containsTreeMap lambdaFunc depth rootTags [] with
  | some insideOutStack => some (popAll insideOutStack [])
  | none => none

/-- A finite forest of tags: empty, or a first tree (its tag and the forest of
its children) followed by the forest of its right siblings. -/
inductive Forest where
  | nil
  | cons (tag : Int) (children : Forest) (siblings : Forest)

/-- The tags of the top-level trees, left to right. -/
def Forest.roots : Forest → List Int
  | .nil => []
  | .cons tag _ siblings => tag :: siblings.roots

/-- All tags of the forest, each node before its children, children left to
right. -/
def Forest.preorder : Forest → List Int
  | .nil => []
  | .cons tag children siblings => tag :: (children.preorder ++ siblings.preorder)

/-- Number of levels of the forest. -/
def Forest.height : Forest → Nat
  | .nil => 0
  | .cons _ children siblings => max (children.height + 1) siblings.height

/-- The map lists, for every node of the forest, exactly the node's children
in order. -/
def Describes (map : TreeMap) : Forest → Prop
  | .nil => True
  | .cons tag children siblings =>
    map.children tag = children.roots ∧ Describes map children ∧ Describes map siblings

/-- Modelled from the spec: a containment tree in the strict sense, as the
children-before-parents property takes it.  The map sends a tag to the ordered
list of the tags nested directly inside it, the root list holds the tags with
no parent, no tag has two parents and there is no cycle.  That is, map and
root list are those of a forest `F` with pairwise distinct tags, and every key
of the map is a tag of `F`. -/
structure IsContainmentTree (containsTreeMap : TreeMap) (rootTags : List Int) (F : Forest) :
    Prop where
  keys_nodup : containsTreeMap.keys.Nodup
  describes : Describes containsTreeMap F
  roots_eq : rootTags = F.roots
  tags_nodup : F.preorder.Nodup
  keys_mem : ∀ k ∈ containsTreeMap.keys, k ∈ F.preorder

/-- The tags that occur in the map, as a key or as a member of a child list. -/
def TreeMap.tags (map : TreeMap) : List Int :=
  map.keys ++ map.flatMap Prod.snd

/-- The loop of lines 234-241 as a transformation of both variables: it
returns the final `insideOutStack` together with the final
`srmInsideOutOrder`. -/
def popLoop : List Int → List Int → List Int × List Int
  | [], srmInsideOutOrder => ([], srmInsideOutOrder)
  | tag :: insideOutStack, srmInsideOutOrder => popLoop insideOutStack (srmInsideOutOrder ++ [tag])

/-- A visitor that only records the arguments of each invocation, in order. -/
def recordCall (calls : List (Int × List Int)) (tag : Int) (children : List Int) :
    List (Int × List Int) :=
  calls ++ [(tag, children)]

/-- The contents of `insideOutStack` after `lambdaFunc` was invoked with the
given sequence of arguments, starting from an empty stack. -/
def stackAfter (calls : List (Int × List Int)) : List Int :=
  calls.foldl (fun insideOutStack c => lambdaFunc insideOutStack c.1 c.2) []

/-! ## The containment scan (`ClusteringSegmentation.cpp`, lines 754-810) -/

/-- The container `std::set<int32_t>`, as the list of its elements in
iteration order, which for `std::set` is ascending order.  This is
`set.insert(hint, x)`: the element goes to its sorted position and a value
already present is not inserted again; the hint does not affect the result. -/
def setInsert (x : Int) : List Int → List Int
  | [] => [x]
  | y :: ys => if x < y then x :: y :: ys else if x = y then y :: ys else y :: setInsert x ys

/-- The container `unordered_map<int32_t, set<int32_t>>` accessed through
`map[tag]` only: a key never written holds the empty set. -/
abbrev ExactMap := Int → List Int

/-- Body of the loop `for (Coord coord : spPtr->coords)` (lines 781-803); the
`DEBUG`-only lookup of lines 798-802 is left out. -/
def recordOtherTag (renderedTagsMat : Mat Vec3b) (otherTagsSet : List Int) (coord : Point) :
    List Int :=
  let vec := renderedTagsMat.get coord.y coord.x
  let otherTag : Nat := toUInt32 (Vec3BToUID vec)
  if ¬ (toInt32 otherTag ∈ otherTagsSet) then
    setInsert (toInt32 otherTag) otherTagsSet
  else
    otherTagsSet

/-- The overlap scan, lines 770-810.  `srmCoords tag` stands for
`srmSpImage.getSuperpixelPtr(tag)->coords`. -/
def overlapScan (srmCoords : Int → List Point) (renderedTagsMat : Mat Vec3b)
    (srmSuperpixels : List Int) : ExactMap :=
  srmSuperpixels.foldl
    (fun srmSuperpixelToExactMap tag =>
      let otherTagsSet := srmSuperpixelToExactMap tag
      Function.update srmSuperpixelToExactMap tag
        ((srmCoords tag).foldl (recordOtherTag renderedTagsMat) otherTagsSet))
    (fun _ => [])

/-- The spec's wording of the overlap test for one coarse region: the fine tags
in the order in which they are first met along the region's coordinates,
duplicates ignored. -/
def firstSeenOrder (renderedTagsMat : Mat Vec3b) (coords : List Point) : List Int :=
  coords.foldl
    (fun seen coord =>
      let tag := Vec3BToUID (renderedTagsMat.get coord.y coord.x)
      if tag ∈ seen then seen else seen ++ [tag])
    []

/-! ## The containment resolver -/

/-- Modelled from the spec: the root set derived from the containment tree,
"coarse tags with no parent": the keys of the map that are in no list of the
map. -/
def parentless (containsTreeMap : TreeMap) : List Int :=
  containsTreeMap.keys.filter (fun k => decide (k ∉ containsTreeMap.flatMap Prod.snd))

/-- Modelled from the spec: the resolver `recurseSuperpixelContainment` is not
part of the sources.  Per the spec the containment tree maps each coarse tag to
the ordered list of the fine tags met on the coordinates of its region
(first-seen order, duplicates ignored; a fine tag is recorded as soon as one
coordinate of the region maps to it), and the root list holds the coarse tags
with no parent.  `coarseTags` lists the tags of the coarse regions,
`coarseCoords T` the coordinates owned by region `T`, and `fineTags` is the
fine-label raster. -/
def recurseSuperpixelContainment (coarseTags : List Int) (coarseCoords : Int → List Point)
    (fineTags : Mat Vec3b) : TreeMap × List Int :=
  let containsTreeMap : TreeMap :=
    coarseTags.map (fun T => (T, firstSeenOrder fineTags (coarseCoords T)))
  (containsTreeMap, parentless containsTreeMap)

/-! ## The region graph (`SuperpixelImage`) -/

/-- Modelled from the spec: the class `SuperpixelImage` (the Region Graph) is
not part of the sources; only its uses are (`spImage.superpixels.size()`,
`getSuperpixelPtr(tag)->coords`).  Per the spec it owns the mapping from tag to
Superpixel and the adjacency relation: `superpixels` lists the live tags in
creation order, `coordsOf tag` is the ordered coordinate collection of the
Superpixel with that tag (empty for a tag that is not live), and `edges` holds
each adjacent pair of tags once. -/
structure SuperpixelImage where
  superpixels : List Int
  coordsOf : Int → List Point
  edges : List (Int × Int)

/-- The graph with no superpixel. -/
def SuperpixelImage.empty : SuperpixelImage :=
  { superpixels := [], coordsOf := fun _ => [], edges := [] }

/-- Modelled from the spec: "append its Coord to that tag's Superpixel
(creating the Superpixel on first sight)". -/
def SuperpixelImage.addCoord (g : SuperpixelImage) (tag : Int) (p : Point) : SuperpixelImage :=
  { g with
    superpixels := if tag ∈ g.superpixels then g.superpixels else g.superpixels ++ [tag]
    coordsOf := Function.update g.coordsOf tag (g.coordsOf tag ++ [p]) }

/-- Modelled from the spec: "record an adjacency edge whenever the two neighbor
tags differ"; a pair already recorded, in either direction, is not recorded
again. -/
def SuperpixelImage.addEdge (g : SuperpixelImage) (a b : Int) : SuperpixelImage :=
  if a = b then g
  else if (a, b) ∈ g.edges ∨ (b, a) ∈ g.edges then g
  else { g with edges := g.edges ++ [(a, b)] }

/-- Modelled from the spec: the first pass of the parse, "for each pixel,
decode its tag and append its Coord to that tag's Superpixel". -/
def SuperpixelImage.scanCoords (tagsImg : Mat Vec3b) : SuperpixelImage :=
  (scanOrder tagsImg.rows tagsImg.cols).foldl
    (fun g p => g.addCoord (Vec3BToUID (tagsImg.get p.y p.x)) p) SuperpixelImage.empty

/-- Modelled from the spec: the second pass of the parse at one pixel, "compare
against its right and lower raster-neighbor". -/
def SuperpixelImage.scanEdgesAt (tagsImg : Mat Vec3b) (g : SuperpixelImage) (p : Point) :
    SuperpixelImage :=
  let tagAt := fun (y x : Nat) => Vec3BToUID (tagsImg.get y x)
  let g1 := if p.x + 1 < tagsImg.cols then g.addEdge (tagAt p.y p.x) (tagAt p.y (p.x + 1)) else g
  if p.y + 1 < tagsImg.rows then g1.addEdge (tagAt p.y p.x) (tagAt (p.y + 1) p.x) else g1

/-- Modelled from the spec: `SuperpixelImage::parse` is not part of the
sources.  Per the spec (section 4.1) it fails on an empty raster; otherwise it
scans the raster once, decoding each pixel's tag and appending the pixel's
coordinate to that tag's Superpixel, and in a second pass compares every pixel
with its right and its lower neighbour and records an edge when the tags
differ. -/
def SuperpixelImage.parse (tagsImg : Mat Vec3b) : Option SuperpixelImage :=
  if tagsImg.rows = 0 ∨ tagsImg.cols = 0 then
    none
  else
    some ((scanOrder tagsImg.rows tagsImg.cols).foldl (SuperpixelImage.scanEdgesAt tagsImg)
      (SuperpixelImage.scanCoords tagsImg))

/-! ## Identical-region merge -/

/-- Modelled from the spec: "the representative color sampled from
`sourceImage` at one coordinate of each region"; the coordinate taken is the
first of the region's collection, and a region without coordinates has no
representative colour. -/
def SuperpixelImage.repColor (g : SuperpixelImage) (sourceImage : Mat Vec3b) (tag : Int) :
    Option Vec3b :=
  (g.coordsOf tag).head?.map (fun p => sourceImage.get p.y p.x)

/-- Modelled from the spec: an adjacent pair of two different tags whose
representative colours are bit-exact equal. -/
def SuperpixelImage.isIdenticalPair (g : SuperpixelImage) (sourceImage : Mat Vec3b)
    (e : Int × Int) : Bool :=
  e.1 != e.2 && g.repColor sourceImage e.1 == g.repColor sourceImage e.2

/-- Modelled from the spec: which region of a pair gives up its coordinates.
Returned as (donor, survivor): the region of larger size is the donor, and for
equal sizes the higher tag value is the donor. -/
def SuperpixelImage.donorAndSurvivor (g : SuperpixelImage) (a b : Int) : Int × Int :=
  let sizeA := (g.coordsOf a).length
  let sizeB := (g.coordsOf b).length
  if sizeB < sizeA then (a, b)
  else if sizeA < sizeB then (b, a)
  else if b < a then (a, b)
  else (b, a)

/-- Adjacency pairs without a repeated pair, in either direction. -/
def dedupEdges (edges : List (Int × Int)) : List (Int × Int) :=
  edges.foldl (fun acc e => if e ∈ acc ∨ (e.2, e.1) ∈ acc then acc else acc ++ [e]) []

/-- Modelled from the spec: one merge.  "Move all coordinates of the [donor]
into the other, delete the donor tag from the mapping, rewrite all adjacency
edges that referenced the donor to instead reference the survivor
(deduplicating any edge that would become a self-edge)". -/
def SuperpixelImage.mergePair (g : SuperpixelImage) (donor survivor : Int) : SuperpixelImage :=
  { superpixels := g.superpixels.filter (fun t => t != donor)
    coordsOf := Function.update
      (Function.update g.coordsOf survivor (g.coordsOf survivor ++ g.coordsOf donor)) donor []
    edges := dedupEdges
      ((g.edges.map (fun e => (if e.1 = donor then survivor else e.1,
                               if e.2 = donor then survivor else e.2))).filter
        (fun e => e.1 != e.2)) }

/-- Modelled from the spec: `mergeIdenticalSuperpixels(sourceImage)` is not part
of the sources.  Per the spec (section 4.2) it looks for an adjacent pair with
bit-exact equal representative colours, merges it, and repeats until a scan of
the adjacency relation finds no such pair.  `fuel` bounds the number of scans;
`none` means the bound was hit. -/
def SuperpixelImage.mergeIdenticalSuperpixels (sourceImage : Mat Vec3b) :
    Nat → SuperpixelImage → Option SuperpixelImage
  | 0, _ => none
  | fuel + 1, g =>
    match g.edges.find? (g.isIdenticalPair sourceImage) with
    | none => some g
    | some e =>
      let ds := g.donorAndSurvivor e.1 e.2
      SuperpixelImage.mergeIdenticalSuperpixels sourceImage fuel (g.mergePair ds.1 ds.2)

/-- Modelled from the spec: the Region Graph invariant that every tag
referenced by the adjacency relation is a tag of the mapping. -/
def SuperpixelImage.EdgesLive (g : SuperpixelImage) : Prop :=
  ∀ e ∈ g.edges, e.1 ∈ g.superpixels ∧ e.2 ∈ g.superpixels

/-! ## The stages of `clusteringCombine` and `main` (`ClusteringSegmentationMain.cpp`) -/

/-- The steps of a run of `clusteringCombine` that matter for failure
propagation, identified by call site: the calls of the stages and the `imwrite`
calls of the two debug images written by `clusteringCombine` itself outside the
accumulation (the accumulation stage writes its own debug images). -/
inductive CombineEvent where
  | srmMultiSegment
  | parse
  | imwriteTagsInit
  | containment
  | accumulation
  | reparse
  | imwriteTagsAfterRegionMerge
deriving DecidableEq

/-- What a run of `clusteringCombine` did: the value it returned (`none` when
it did not return, because an assertion failed or the recursion bound of the
tree walk was hit) and the steps it went through, in order. -/
structure CombineRun where
  returned : Option Bool
  events : List CombineEvent

/-- The collaborators of `clusteringCombine`, for one input image:
`srmMultiSegment(inputImg, srmTags)` (`none` when it returns false),
`SuperpixelImage::parse` (`none` when it returns false),
`fillMatrixWithSuperpixelTags`, `recurseSuperpixelContainment` (returning the
map and the root list), `captureRegionMask` with its initial state, the
indeterminate initial contents of `maskMat`, and `my_adler32`. -/
structure Collaborators (σ G : Type) where
  srmMultiSegment : Option (Mat Vec3b)
  parse : Mat Vec3b → Option G
  fillMatrixWithSuperpixelTags : G → Mat Vec3b → Mat Vec3b
  recurseSuperpixelContainment : G → Mat Vec3b → TreeMap × List Int
  captureRegionMask : CaptureRegionMask σ
  env : G → σ
  garbage : Nat → Nat → UChar
  my_adler32 : Nat → List UChar → Nat

/-- Lines 425-457 of `clusteringCombine`, given the steps taken so far and what
lines 425-437 decided: a failed re-parse returns false at line 435; otherwise
the final debug image is written and the function returns true. -/
def finishCombine {G : Type} (events : List CombineEvent) : Reparse G → CombineRun
  | .skipped _ =>
    { returned := some true, events := events ++ [.imwriteTagsAfterRegionMerge] }
  | .reparsed _ =>
    { returned := some true, events := events ++ [.reparse, .imwriteTagsAfterRegionMerge] }
  | .parseFailed =>
    { returned := some false, events := events ++ [.reparse] }

/-- The function `clusteringCombine` of `ClusteringSegmentationMain.cpp` for an
input image of the given size; `depth` bounds the recursion of the tree walk. -/
def clusteringCombine {σ G : Type} (c : Collaborators σ G) (rows cols depth : Nat) : CombineRun :=
  match c.srmMultiSegment with
  | none => { returned := some false, events := [.srmMultiSegment] }
  | some srmTags0 =>
    match c.parse srmTags0 with
    | none => { returned := some false, events := [.srmMultiSegment, .parse] }
    | some spImage =>
      let srmTags := c.fillMatrixWithSuperpixelTags spImage srmTags0
      let tree := c.recurseSuperpixelContainment spImage srmTags
      match insideOutOrder depth tree.1 tree.2 with
      | none =>
        { returned := none
          events := [.srmMultiSegment, .parse, .imwriteTagsInit, .containment] }
      | some srmInsideOutOrder =>
        match mergeBlock c.my_adler32 c.parse c.captureRegionMask srmTags rows cols c.garbage
            (c.env spImage) srmInsideOutOrder spImage with
        | none =>
          { returned := none
            events := [.srmMultiSegment, .parse, .imwriteTagsInit, .containment, .accumulation] }
        | some r =>
          finishCombine
            [.srmMultiSegment, .parse, .imwriteTagsInit, .containment, .accumulation] r.2

/-- The steps of a run of `main` after the input image was loaded: the steps of
`clusteringCombine`, and the call `imwrite(outputTagsImgFilename, resultImg)`
of line 113. -/
inductive MainEvent where
  | combine (e : CombineEvent)
  | imwriteOutputTags
deriving DecidableEq

/-- What a run of `main` did: its exit status (`none` when the process did not
reach `exit`) and its steps. -/
structure MainRun where
  exitStatus : Option Nat
  events : List MainEvent

/-- Lines 107-117 of `main`, given the run of `clusteringCombine`. -/
def mainAfterCombine (r : CombineRun) : MainRun :=
  match r.returned with
  | some true =>
    { exitStatus := some 0, events := r.events.map MainEvent.combine ++ [.imwriteOutputTags] }
  | some false =>
    { exitStatus := some 1, events := r.events.map MainEvent.combine }
  | none =>
    { exitStatus := none, events := r.events.map MainEvent.combine }

/-- The function `main` from line 105 on, for a loaded input image. -/
def mainRun {σ G : Type} (c : Collaborators σ G) (rows cols depth : Nat) : MainRun :=
  mainAfterCombine (clusteringCombine c rows cols depth)

/-! ## The block grid and the initial tags (`ClusteringSegmentation.cpp`, lines 308-351) -/

/-- The constant `superpixelDim` (line 316, and line 136 of
`ClusteringSegmentationMain.cpp`). -/
def superpixelDim : Nat := 4

/-- Lines 317-320 for `size = inputImg.cols` (giving `blockWidth`) and lines
321-324 for `size = inputImg.rows` (giving `blockHeight`); the same code stands
at lines 137-144 of `ClusteringSegmentationMain.cpp`.  Image sizes are natural
numbers; for a size that is a value of `int`, neither the division nor the
increment leaves the range of `int`. -/
def blockCount (size : Nat) : Nat :=
  let blockWidth := size / superpixelDim
  if size % superpixelDim ≠ 0 then blockWidth + 1 else blockWidth

/-- The value of the `int` expression `blockWidth * superpixelDim` in the
assertions of lines 326-327 (lines 146-147 of `ClusteringSegmentationMain.cpp`)
for an image size `size`: the product is taken in 32-bit two's-complement
arithmetic, which is what the usual targets compute when the signed product
leaves the range of `int`. -/
def blockSpan (size : Nat) : Int :=
  toInt32 (blockCount size * superpixelDim)

/-- The condition of `assert((blockWidth * superpixelDim) >= inputImg.cols)`
(with `size = inputImg.cols`) and of
`assert((blockHeight * superpixelDim) >= inputImg.rows)` (with
`size = inputImg.rows`). -/
def blockAssertion (size : Nat) : Bool :=
  decide (blockSpan size ≥ (size : Int))

/-- The expression `(yStep * blockWidth) + xStep` of line 335, with
`yStep = y >> 2` and `xStep = x >> 2`. -/
def blockTagExpr (blockWidth : Nat) (y x : Nat) : Nat :=
  let yStep := y >>> 2
  let xStep := x >>> 2
  (yStep * blockWidth) + xStep

/-- The loop of lines 329-351: `tagsImg` starts as an all-zero raster of the
size of the input image, and every pixel receives `PixelToVec3b(tag)` for the
`uint32_t tag` of line 335. -/
def blockTagsImg (rows cols : Nat) : Mat Vec3b :=
  (scanOrder rows cols).foldl
    (fun tagsImg p =>
      let tag : Nat := blockTagExpr (blockCount cols) p.y p.x % 2 ^ 32
      let vec := PixelToVec3b tag
      tagsImg.put p.y p.x vec)
    (Mat.filled rows cols (Vec3b.mk 0 0 0))

/-! ## The quantized-colour count table (`ClusteringSegmentation.cpp`, lines 597-610) -/

/-- The loop of lines 605-608,
`for (int i = 0; i < numPixels; i++) { pixel = outPixels[i++]; table[pixel] += 1; }`,
from the moment the loop condition is tested with the given `i` and table.
`outPixels` is the array of quantized pixels; the table
`unordered_map<uint32_t, uint32_t>` is accessed through `operator[]` only and
is a total function with default 0.  `fuel` bounds the number of iterations. -/
def countQuantLoop (outPixels : List Nat) (numPixels : Nat) :
    Nat → Nat → (Nat → Nat) → (Nat → Nat)
  | 0, _, pixel_to_quant_count => pixel_to_quant_count
  | fuel + 1, i, pixel_to_quant_count =>
    if i < numPixels then
      let pixel := outPixels.getD i 0
      let i1 := i + 1
      let table := Function.update pixel_to_quant_count pixel
        ((pixel_to_quant_count pixel + 1) % 2 ^ 32)
      let i2 := i1 + 1
      countQuantLoop outPixels numPixels fuel i2 table
    else
      pixel_to_quant_count

/-- The table `pixel_to_quant_count` after the loop of lines 605-608; the loop
makes at most `numPixels` iterations. -/
def quantCountTable (outPixels : List Nat) (numPixels : Nat) : Nat → Nat :=
  countQuantLoop outPixels numPixels numPixels 0 (fun _ => 0)

/-! ## The expanding region of interest (`ClusteringSegmentation.cpp`, lines 927-965) -/

/-- The OpenCV rectangle `cv::Rect`. -/
structure Rect where
  x : Int
  y : Int
  width : Int
  height : Int
deriving DecidableEq

/-- Lines 928-952 for one value of `expandStep`: the expanded rectangle, or
`none` when one of the four guards executes `break`.  `cols`, `rows` are the
size of `inputImg`; `width`, `height` are those of the bounding box. -/
def expandedRoi (cols rows regionCenterX regionCenterY width height expandStep : Int) :
    Option Rect :=
  let halfWidth := width.tdiv 2
  let halfHeight := height.tdiv 2
  let expandedX := regionCenterX - halfWidth - expandStep
  let expandedY := regionCenterY - halfHeight - expandStep
  let expandedWidth := (halfWidth + expandStep) * 2
  let expandedHeight := (halfHeight + expandStep) * 2
  if expandedX < 0 then none
  else if expandedY < 0 then none
  else if expandedWidth > cols then none
  else if expandedHeight > rows then none
  else some (Rect.mk expandedX expandedY expandedWidth expandedHeight)

/-- The precondition that OpenCV checks (`CV_Assert`) when a sub-matrix
`m(roi)` is taken: the rectangle lies inside the matrix. -/
def Rect.isInside (roi : Rect) (cols rows : Int) : Bool :=
  decide (0 ≤ roi.x) && decide (0 ≤ roi.width) && decide (roi.x + roi.width ≤ cols) &&
  decide (0 ≤ roi.y) && decide (0 ≤ roi.height) && decide (roi.y + roi.height ≤ rows)

/-- The loop of lines 927-965 over the given values of `expandStep`, collecting
the rectangles cropped by `inputImg(expandedRoi)`: it ends at the first
`break`, and it stops with a failed assertion at the first rectangle that does
not lie inside the image. -/
def expandRoiLoop (cols rows regionCenterX regionCenterY width height : Int) :
    List Int → List Rect → Outcome (List Rect)
  | [], crops => .finished crops
  | expandStep :: steps, crops =>
    match expandedRoi cols rows regionCenterX regionCenterY width height expandStep with
    | none => .finished crops
    | some expandedRoi =>
      if expandedRoi.isInside cols rows then
        expandRoiLoop cols rows regionCenterX regionCenterY width height steps
          (crops ++ [expandedRoi])
      else
        .assertFailed crops

/-! ## The region-selection loop (`ClusteringSegmentation.cpp`, lines 818-1079) -/

/-- Whether the run went through without a failed assertion. -/
def Outcome.isFinished {α : Type} : Outcome α → Bool
  | .finished _ => true
  | .assertFailed _ => false

/-- The invariant behind "written at most once": the trace has no repetition
and every traced pixel is set in the composite. -/
def TraceOk {σ : Type} (st : Accum σ) : Prop :=
  st.written.Nodup ∧ ∀ p ∈ st.written, st.mergeMat.get p.y p.x ≠ Vec3b.mk 0 0 0

/-- The visitor applied to a sequence of tags, one after the other. -/
def visitAll {S : Type} (map : TreeMap) (f : S → Int → List Int → S) (tags : List Int) (s : S) : S :=
  tags.foldl (fun s1 tag => f s1 tag (map.children tag)) s

/-- Tag `d` is nested, directly or through intermediate tags, inside tag `a`
according to the map. -/
def IsDescendant (map : TreeMap) (a d : Int) : Prop :=
  Relation.TransGen (fun p c => c ∈ map.children p) a d

/-- The composite used in the concrete checks: 2 x 2, tag 5 at `(x, y) = (1, 0)`,
unset elsewhere. -/
def demoComposite : Mat Vec3b :=
  (Mat.filled 2 2 (Vec3b.mk 0 0 0)).put 0 1 (PixelToVec3b 5)

/-- The accumulator state holding `demoComposite`, with a mask buffer whose
contents are stale. -/
def demoState : Accum Unit :=
  { mergeMat := demoComposite
    maskMat := Mat.filled 2 2 7
    env := ()
    written := [Point.mk 1 0] }

/-- A fine-label raster for the concrete checks: 2 x 2, tag 5 everywhere. -/
def demoTags : Mat Vec3b := Mat.filled 2 2 (PixelToVec3b 5)

/-- A capture collaborator for the concrete checks: it always reports success
and marks exactly the pixels that the incoming mask shows as not yet
committed. -/
def captureUncommitted : CaptureRegionMask Unit :=
  fun env _tag maskMat =>
    { maskWritten := true
      mask := fun y x => if maskMat.px y x = 0 then 0xFF else 0
      env := env }

/-- A capture collaborator for the concrete checks: it always reports success
and marks every pixel. -/
def captureEverything : CaptureRegionMask Unit :=
  fun env _tag _maskMat => { maskWritten := true, mask := fun _ _ => 0xFF, env := env }

/-- A fine-label raster for the concrete checks: 1 row, 2 columns, tag 1 at
`(0, 0)` and tag 2 at `(1, 0)`. -/
def twoTags : Mat Vec3b :=
  (Mat.filled 1 2 (PixelToVec3b 1)).put 0 1 (PixelToVec3b 2)

/-- An accumulator state over `twoTags` in which pixel `(1, 0)` already holds
the colour of tag 1, although `twoTags` holds tag 2 there. -/
def clashState : Accum Unit :=
  { mergeMat := (Mat.filled 1 2 (Vec3b.mk 0 0 0)).put 0 1 (PixelToVec3b 1)
    maskMat := Mat.filled 1 2 0
    env := ()
    written := [Point.mk 1 0] }

/-- The initial accumulator state for the raster `twoTags`. -/
def twoTagsStart : Accum Unit := initialAccum 1 2 (fun _ _ => 0) ()

/-- A containment forest for the concrete checks: tag 1 contains 2 and 3, tag 2
contains 4, and tag 5 contains 6. -/
def demoForest : Forest :=
  .cons 1 (.cons 2 (.cons 4 .nil .nil) (.cons 3 .nil .nil)) (.cons 5 (.cons 6 .nil .nil) .nil)

/-- The map of `demoForest`, entries in no particular order; the leaves 3 and 6
have an entry with no children, the leaf 4 has no entry. -/
def demoTreeMap : TreeMap := [(5, [6]), (1, [2, 3]), (3, []), (2, [4]), (6, [])]

/-- The 4 x 4 uniform single-tag raster: tag 1 everywhere. -/
def uniformTags : Mat Vec3b := Mat.filled 4 4 (PixelToVec3b 1)

/-- The raster `uniformTags` with the tag of pixel `(0, 0)` changed to 2. -/
def mutatedComposite : Mat Vec3b := uniformTags.put 0 0 (PixelToVec3b 2)

/-- A rendered fine-label raster for the concrete checks: 1 row, 3 columns,
tags 5, 3, 5 from left to right. -/
def renderedDemo : Mat Vec3b :=
  ((Mat.filled 1 3 (PixelToVec3b 5)).put 0 1 (PixelToVec3b 3))

/-- Coordinates of the SRM superpixels for the concrete checks: tag 1 owns the
two left pixels, tag 2 the two right pixels (in that stored order), no other
tag owns anything. -/
def srmCoordsDemo (tag : Int) : List Point :=
  if tag = 1 then [Point.mk 0 0, Point.mk 1 0]
  else if tag = 2 then [Point.mk 2 0, Point.mk 1 0]
  else []

/-- A label raster for the concrete checks: 2 x 2, tag 7 in the left column and
tag 9 in the right column. -/
def twoColumns : Mat Vec3b :=
  ((Mat.filled 2 2 (PixelToVec3b 7)).put 0 1 (PixelToVec3b 9)).put 1 1 (PixelToVec3b 9)

/-- A region graph for the concrete checks: three regions in a row, tags 1, 2,
3, one pixel each, 1 adjacent to 2 and 2 adjacent to 3. -/
def threeRegions : SuperpixelImage :=
  { superpixels := [1, 2, 3]
    coordsOf := fun tag =>
      if tag = 1 then [Point.mk 0 0] else if tag = 2 then [Point.mk 1 0]
      else if tag = 3 then [Point.mk 2 0] else []
    edges := [(1, 2), (2, 3)] }

/-- A source image for the concrete checks: 1 row, 3 columns, the two left
pixels of one colour and the right pixel of another. -/
def sourceDemo : Mat Vec3b :=
  (Mat.filled 1 3 (Vec3b.mk 10 20 30)).put 0 2 (Vec3b.mk 40 50 60)

/-- Collaborators for the concrete checks: the segmentation succeeds, the
parse fails. -/
def parseFails : Collaborators Unit Nat :=
  { srmMultiSegment := some uniformTags
    parse := fun _ => none
    fillMatrixWithSuperpixelTags := fun _ m => m
    recurseSuperpixelContainment := fun _ _ => ([], [])
    captureRegionMask := captureUncommitted
    env := fun _ => ()
    garbage := fun _ _ => 0
    my_adler32 := adler32 }

/-- The invariant behind "the accumulation is a pixel-wise copy": every
composite pixel is either unset or equal to `srmTags` at the same
coordinate. -/
def CopyOk {σ : Type} (srmTags : Mat Vec3b) (st : Accum σ) : Prop :=
  ∀ y x, st.mergeMat.get y x = Vec3b.mk 0 0 0 ∨ st.mergeMat.get y x = srmTags.get y x

/-- Whether lines 425-437 kept the working region graph without a re-parse. -/
def Reparse.isSkipped {G : Type} : Reparse G → Bool
  | .skipped _ => true
  | .reparsed _ => false
  | .parseFailed => false

theorem mem_scanOrder {rows cols : Nat} {p : Point} :
    p ∈ scanOrder rows cols ↔ p.y < rows ∧ p.x < cols := by
  unfold scanOrder
  simp only [List.mem_flatMap, List.mem_map, List.mem_range]
  constructor
  · rintro ⟨y, hy, x, hx, rfl⟩
    exact ⟨hy, hx⟩
  · rintro ⟨hy, hx⟩
    exact ⟨p.y, hy, p.x, hx, rfl⟩

theorem scanOrder_nodup (rows cols : Nat) : (scanOrder rows cols).Nodup := by
  unfold scanOrder
  rw [List.nodup_flatMap]
  refine ⟨fun y _ => ?_, ?_⟩
  · refine List.Nodup.map ?_ (List.nodup_range cols)
    intro a b h
    exact congrArg Point.x h
  · refine List.Pairwise.imp_of_mem ?_ (List.nodup_range rows)
    intro a b _ _ hab
    simp only [Function.onFun]
    intro p hp hq
    simp only [List.mem_map, List.mem_range] at hp hq
    obtain ⟨x1, _, rfl⟩ := hp
    obtain ⟨x2, _, h2⟩ := hq
    exact hab (congrArg Point.y h2).symm

theorem Mat.get_put {α : Type} (m : Mat α) (y x : Nat) (v : α) (y1 x1 : Nat) :
    (m.put y x v).get y1 x1 = if y1 = y ∧ x1 = x then v else m.get y1 x1 := rfl

theorem Mat.rows_put {α : Type} (m : Mat α) (y x : Nat) (v : α) :
    (m.put y x v).rows = m.rows := rfl

theorem Mat.cols_put {α : Type} (m : Mat α) (y x : Nat) (v : α) :
    (m.put y x v).cols = m.cols := rfl

theorem packed_eq (R G B : Nat) (hG : G < 256) (hB : B < 256) :
    (R <<< 16) ||| (G <<< 8) ||| B = R * 65536 + G * 256 + B := by
  have h1 : 2 ^ 16 * R + G * 256 = 2 ^ 16 * R ||| G * 256 :=
    Nat.mul_add_lt_is_or (by omega) R
  have h2 : 2 ^ 8 * (R * 256 + G) + B = 2 ^ 8 * (R * 256 + G) ||| B :=
    Nat.mul_add_lt_is_or (by omega) (R * 256 + G)
  have h3 : 2 ^ 8 * (R * 256 + G) = 2 ^ 16 * R ||| G * 256 := by
    rw [← h1]; ring
  rw [Nat.shiftLeft_eq, Nat.shiftLeft_eq]
  have h4 : R * 2 ^ 16 = 2 ^ 16 * R := Nat.mul_comm _ _
  have h5 : G * 2 ^ 8 = G * 256 := by norm_num
  rw [h4, h5, ← h3, ← h2]
  ring

theorem Vec3BToUID_eq (v : Vec3b) :
    Vec3BToUID v = ((v.v2.val * 65536 + v.v1.val * 256 + v.v0.val : Nat) : Int) := by
  have h0 := v.v0.isLt
  have h1 := v.v1.isLt
  have h2 := v.v2.isLt
  simp only [Vec3BToUID, toInt32]
  rw [packed_eq _ _ _ h1 h0]
  have hlt : v.v2.val * 65536 + v.v1.val * 256 + v.v0.val < 2 ^ 24 := by omega
  have hm : (v.v2.val * 65536 + v.v1.val * 256 + v.v0.val) % 2 ^ 32
      = v.v2.val * 65536 + v.v1.val * 256 + v.v0.val := Nat.mod_eq_of_lt (by omega)
  rw [hm, hm, if_pos (by omega)]

theorem toUInt32_Vec3BToUID (v : Vec3b) :
    toUInt32 (Vec3BToUID v) = v.v2.val * 65536 + v.v1.val * 256 + v.v0.val := by
  have h0 := v.v0.isLt
  have h1 := v.v1.isLt
  have h2 := v.v2.isLt
  rw [Vec3BToUID_eq, toUInt32]
  omega

theorem isUnset_iff (v : Vec3b) : isUnset v = true ↔ Vec3BToUID v = 0 := by
  have h0 := v.v0.isLt
  have h1 := v.v1.isLt
  have h2 := v.v2.isLt
  rw [Vec3BToUID_eq]
  simp only [isUnset, Bool.and_eq_true, beq_iff_eq]
  constructor
  · rintro ⟨⟨a, b⟩, c⟩
    rw [a, b, c]; rfl
  · intro h
    have h3 : v.v2.val * 65536 + v.v1.val * 256 + v.v0.val = 0 := by exact_mod_cast h
    refine ⟨⟨Fin.ext ?_, Fin.ext ?_⟩, Fin.ext ?_⟩ <;> simp <;> omega

theorem isUnset_iff_eq (v : Vec3b) : isUnset v = true ↔ v = Vec3b.mk 0 0 0 := by
  cases v with
  | mk a b c =>
    simp only [isUnset, Bool.and_eq_true, beq_iff_eq, Vec3b.mk.injEq, and_assoc]

theorem toUInt32_eq_zero_iff (v : Vec3b) : toUInt32 (Vec3BToUID v) = 0 ↔ Vec3BToUID v = 0 := by
  rw [toUInt32_Vec3BToUID, Vec3BToUID_eq]
  constructor
  · intro h; rw [h]; rfl
  · intro h; exact_mod_cast h

/-! ## The mask loop and the backfill loop, pixel by pixel -/

theorem copyMergeToMask_foldl (mergeMat : Mat Vec3b) (l : List Point) (maskMat : Mat UChar)
    (y x : Nat) :
    (l.foldl (copyMergeToMaskAt mergeMat) maskMat).get y x =
      if Point.mk x y ∈ l then
        (if toUInt32 (Vec3BToUID (mergeMat.get y x)) = 0 then (0 : UChar) else 0xFF)
      else maskMat.get y x := by
  induction l using List.reverseRecOn with
  | nil => simp
  | append_singleton l p ih =>
    rw [List.foldl_append, List.foldl_cons, List.foldl_nil, copyMergeToMaskAt, Mat.get_put, ih]
    by_cases hp : y = p.y ∧ x = p.x
    · obtain ⟨rfl, rfl⟩ := hp
      simp
    · have hne : Point.mk x y ≠ p := by
        intro h
        apply hp
        rw [← h]
        exact ⟨rfl, rfl⟩
      simp [hp, hne]

theorem backfillState_foldl {σ : Type} (srmTags : Mat Vec3b) (l : List Point) (st : Accum σ)
    (y x : Nat) :
    (l.foldl (backfillStateAt srmTags) st).mergeMat.get y x =
      if Point.mk x y ∈ l ∧ isUnset (st.mergeMat.get y x) = true then srmTags.get y x
      else st.mergeMat.get y x := by
  induction l generalizing st with
  | nil => simp
  | cons p ps ih =>
    rw [List.foldl_cons, ih]
    by_cases hp : y = p.y ∧ x = p.x
    · obtain ⟨rfl, rfl⟩ := hp
      by_cases hu : isUnset (st.mergeMat.get p.y p.x) = true
      · simp [backfillStateAt, hu, Mat.get_put]
      · simp [backfillStateAt, hu]
    · have hne : Point.mk x y ≠ p := by
        intro h
        apply hp
        rw [← h]
        exact ⟨rfl, rfl⟩
      have hget : (backfillStateAt srmTags st p).mergeMat.get y x = st.mergeMat.get y x := by
        unfold backfillStateAt
        by_cases hu : isUnset (st.mergeMat.get p.y p.x) = true
        · simp [hu, Mat.get_put, hp]
        · simp [hu]
      rw [hget]
      simp [hne]

/-! ## Claims on the mask and on the backfill -/

/-- C7 (already-committed mask).  In every accumulator state `st`, the mask
that a per-tag step hands to `captureRegionMask` is `maskBeforeCapture st`, and
at every pixel `(x, y)` of the composite it holds `0xFF` if `Vec3BToUID` of the
composite pixel is nonzero and `0` otherwise.  Hence in the initial state, where
the composite is all `(0, 0, 0)`, the mask of the first tag visited is all
zero. -/
theorem mask_before_capture_is_committed_mask {σ : Type} (capture : CaptureRegionMask σ)
    (st : Accum σ) (tag : Int) :
    (afterCapture capture st tag).1 = (capture st.env tag (maskBeforeCapture st)).maskWritten ∧
    (∀ y x, y < st.mergeMat.rows → x < st.mergeMat.cols →
      (maskBeforeCapture st).get y x =
        if Vec3BToUID (st.mergeMat.get y x) ≠ 0 then (0xFF : UChar) else 0) ∧
    (∀ (rows cols : Nat) (garbage : Nat → Nat → UChar) (env : σ) (y x : Nat),
      y < rows → x < cols →
      (maskBeforeCapture (initialAccum rows cols garbage env)).get y x = 0) := by
  have key : ∀ (s : Accum σ) (y x : Nat), y < s.mergeMat.rows → x < s.mergeMat.cols →
      (maskBeforeCapture s).get y x =
        if Vec3BToUID (s.mergeMat.get y x) ≠ 0 then (0xFF : UChar) else 0 := by
    intro s y x hy hx
    have hmem : Point.mk x y ∈ scanOrder s.mergeMat.rows s.mergeMat.cols :=
      mem_scanOrder.mpr ⟨hy, hx⟩
    unfold maskBeforeCapture copyMergeToMask
    rw [copyMergeToMask_foldl, if_pos hmem]
    by_cases h0 : Vec3BToUID (s.mergeMat.get y x) = 0
    · rw [if_pos ((toUInt32_eq_zero_iff _).mpr h0), if_neg (not_not.mpr h0)]
    · rw [if_neg (fun h => h0 ((toUInt32_eq_zero_iff _).mp h)), if_pos h0]
  refine ⟨rfl, key st, ?_⟩
  intro rows cols garbage env y x hy hx
  rw [key (initialAccum rows cols garbage env) y x hy hx]
  have hz : Vec3BToUID ((initialAccum rows cols garbage env).mergeMat.get y x) = 0 := by
    exact (isUnset_iff _).mp rfl
  rw [if_neg (not_not.mpr hz)]

/-- Instance of C7 on `demoState`: the mask is `0xFF` at the committed pixel
`(1, 0)`. -/
theorem mask_before_capture_is_committed_mask_witness :
    (maskBeforeCapture demoState).get 0 1 = 0xFF := by
  have h := (mask_before_capture_is_committed_mask (fun _ _ m => Capture.mk false m.px ())
    demoState 0).2.1 0 1 (by decide) (by decide)
  rw [h]
  decide

/-- C8 (backfill).  When the composite has the size of `srmTags`, after the
backfill every composite pixel that was not `(0, 0, 0)` keeps its value and
every composite pixel that was `(0, 0, 0)` equals `srmTags` at the same
coordinate; consequently, if no pixel of `srmTags` is `(0, 0, 0)`, no pixel of
the composite is left unset. -/
theorem backfill_fills_exactly_unset {σ : Type} (srmTags : Mat Vec3b) (st : Accum σ)
    (hrows : st.mergeMat.rows = srmTags.rows) (hcols : st.mergeMat.cols = srmTags.cols) :
    (∀ y x, y < st.mergeMat.rows → x < st.mergeMat.cols →
      (st.mergeMat.get y x ≠ Vec3b.mk 0 0 0 →
        (backfillState srmTags st).mergeMat.get y x = st.mergeMat.get y x) ∧
      (st.mergeMat.get y x = Vec3b.mk 0 0 0 →
        (backfillState srmTags st).mergeMat.get y x = srmTags.get y x)) ∧
    ((∀ y x, y < srmTags.rows → x < srmTags.cols → srmTags.get y x ≠ Vec3b.mk 0 0 0) →
      ∀ y x, y < st.mergeMat.rows → x < st.mergeMat.cols →
        (backfillState srmTags st).mergeMat.get y x ≠ Vec3b.mk 0 0 0) := by
  have key : ∀ y x, y < st.mergeMat.rows → x < st.mergeMat.cols →
      (backfillState srmTags st).mergeMat.get y x =
        if st.mergeMat.get y x = Vec3b.mk 0 0 0 then srmTags.get y x
        else st.mergeMat.get y x := by
    intro y x hy hx
    have hmem : Point.mk x y ∈ scanOrder srmTags.rows srmTags.cols :=
      mem_scanOrder.mpr ⟨hrows ▸ hy, hcols ▸ hx⟩
    unfold backfillState
    rw [backfillState_foldl]
    by_cases hu : st.mergeMat.get y x = Vec3b.mk 0 0 0
    · rw [if_pos ⟨hmem, (isUnset_iff_eq _).mpr hu⟩, if_pos hu]
    · rw [if_neg (fun h => hu ((isUnset_iff_eq _).mp h.2)), if_neg hu]
  refine ⟨fun y x hy hx => ⟨fun h => ?_, fun h => ?_⟩, fun hnz y x hy hx => ?_⟩
  · rw [key y x hy hx, if_neg h]
  · rw [key y x hy hx, if_pos h]
  · rw [key y x hy hx]
    by_cases hu : st.mergeMat.get y x = Vec3b.mk 0 0 0
    · rw [if_pos hu]
      exact hnz y x (hrows ▸ hy) (hcols ▸ hx)
    · rw [if_neg hu]
      exact hu

/-- Instance of C8 on `demoState` and `demoTags`: the unset pixel `(0, 0)` is
filled from `srmTags`, the committed pixel `(1, 0)` keeps its value, and no
pixel at all is left unset. -/
theorem backfill_fills_exactly_unset_witness :
    (backfillState demoTags demoState).mergeMat.get 0 0 = demoTags.get 0 0 ∧
    (backfillState demoTags demoState).mergeMat.get 0 1 = demoState.mergeMat.get 0 1 ∧
    (∀ y x, y < demoState.mergeMat.rows → x < demoState.mergeMat.cols →
      (backfillState demoTags demoState).mergeMat.get y x ≠ Vec3b.mk 0 0 0) :=
  ⟨((backfill_fills_exactly_unset demoTags demoState rfl rfl).1 0 0
      (by decide) (by decide)).2 (by decide),
   ((backfill_fills_exactly_unset demoTags demoState rfl rfl).1 0 1
      (by decide) (by decide)).1 (by decide),
   (backfill_fills_exactly_unset demoTags demoState rfl rfl).2
      (fun y x _ _ => show PixelToVec3b 5 ≠ Vec3b.mk 0 0 0 by decide)⟩

/-! ## Loops with assertions -/

theorem forEach_preserves {α β : Type} (body : α → β → Outcome α) (I : α → Prop)
    (l : List β) (hbody : ∀ a b, b ∈ l → I a → I (body a b).state) (a : α) (ha : I a) :
    I (forEach body a l).state := by
  induction l generalizing a with
  | nil => exact ha
  | cons b bs ih =>
    have hb := hbody a b (List.mem_cons_self b bs) ha
    unfold forEach
    cases hr : body a b with
    | finished a1 =>
      rw [hr] at hb
      exact ih (fun a2 b2 hmem => hbody a2 b2 (List.mem_cons_of_mem b hmem)) a1 hb
    | assertFailed a1 =>
      rw [hr] at hb
      exact hb

theorem commitAt_eq {σ : Type} (srmTags : Mat Vec3b) (st : Accum σ) (p : Point) :
    commitAt srmTags st p =
      if isUnset (st.mergeMat.get p.y p.x) = true then
        .finished { st with mergeMat := st.mergeMat.put p.y p.x (srmTags.get p.y p.x),
                            written := st.written ++ [p] }
      else .assertFailed st := by
  simp [commitAt, allowReplaceWithSameTag]

theorem commitAt_keeps_set {σ : Type} (srmTags : Mat Vec3b) (st : Accum σ) (p : Point)
    (y x : Nat) (h : st.mergeMat.get y x ≠ Vec3b.mk 0 0 0) :
    (commitAt srmTags st p).state.mergeMat.get y x = st.mergeMat.get y x := by
  rw [commitAt_eq]
  by_cases hu : isUnset (st.mergeMat.get p.y p.x) = true
  · rw [if_pos hu]
    simp only [Outcome.state, Mat.get_put]
    have hne : ¬ (y = p.y ∧ x = p.x) := by
      rintro ⟨rfl, rfl⟩
      exact h ((isUnset_iff_eq _).mp hu)
    rw [if_neg hne]
  · rw [if_neg hu]
    rfl

theorem commitAt_maskMat {σ : Type} (srmTags : Mat Vec3b) (st : Accum σ) (p : Point) :
    (commitAt srmTags st p).state.maskMat = st.maskMat := by
  rw [commitAt_eq]
  by_cases hu : isUnset (st.mergeMat.get p.y p.x) = true
  · rw [if_pos hu]; rfl
  · rw [if_neg hu]; rfl

theorem commitAt_dims {σ : Type} (srmTags : Mat Vec3b) (st : Accum σ) (p : Point) :
    (commitAt srmTags st p).state.mergeMat.rows = st.mergeMat.rows ∧
    (commitAt srmTags st p).state.mergeMat.cols = st.mergeMat.cols := by
  rw [commitAt_eq]
  by_cases hu : isUnset (st.mergeMat.get p.y p.x) = true
  · rw [if_pos hu]; exact ⟨rfl, rfl⟩
  · rw [if_neg hu]; exact ⟨rfl, rfl⟩

theorem traceOk_put {σ : Type} (st : Accum σ) (p : Point) (v : Vec3b)
    (hu : isUnset (st.mergeMat.get p.y p.x) = true) (hv : v ≠ Vec3b.mk 0 0 0)
    (h : TraceOk st) :
    TraceOk { st with mergeMat := st.mergeMat.put p.y p.x v, written := st.written ++ [p] } := by
  obtain ⟨hnd, hset⟩ := h
  have hnot : p ∉ st.written := fun hm => hset p hm ((isUnset_iff_eq _).mp hu)
  refine ⟨?_, ?_⟩
  · show (st.written ++ [p]).Nodup
    rw [List.nodup_append]
    refine ⟨hnd, List.nodup_singleton p, ?_⟩
    intro q hq hq1
    rw [List.mem_singleton] at hq1
    exact hnot (hq1 ▸ hq)
  · intro q hq
    show (st.mergeMat.put p.y p.x v).get q.y q.x ≠ Vec3b.mk 0 0 0
    rw [Mat.get_put]
    have hq1 : q ∈ st.written ++ [p] := hq
    rw [List.mem_append, List.mem_singleton] at hq1
    by_cases hpq : q.y = p.y ∧ q.x = p.x
    · rw [if_pos hpq]; exact hv
    · rw [if_neg hpq]
      rcases hq1 with hq1 | hq1
      · exact hset q hq1
      · exact absurd (hq1 ▸ ⟨rfl, rfl⟩) hpq

theorem commitAt_traceOk {σ : Type} (srmTags : Mat Vec3b) (st : Accum σ) (p : Point)
    (hv : srmTags.get p.y p.x ≠ Vec3b.mk 0 0 0) (h : TraceOk st) :
    TraceOk (commitAt srmTags st p).state := by
  rw [commitAt_eq]
  by_cases hu : isUnset (st.mergeMat.get p.y p.x) = true
  · rw [if_pos hu]
    exact traceOk_put st p _ hu hv h
  · rw [if_neg hu]
    exact h

theorem backfillStateAt_traceOk {σ : Type} (srmTags : Mat Vec3b) (st : Accum σ) (p : Point)
    (hv : srmTags.get p.y p.x ≠ Vec3b.mk 0 0 0) (h : TraceOk st) :
    TraceOk (backfillStateAt srmTags st p) := by
  unfold backfillStateAt
  by_cases hu : isUnset (st.mergeMat.get p.y p.x) = true
  · simp only [hu, if_true]
    exact traceOk_put st p _ hu hv h
  · simp only [hu]
    exact h

theorem backfillStateAt_maskMat {σ : Type} (srmTags : Mat Vec3b) (st : Accum σ) (p : Point) :
    (backfillStateAt srmTags st p).maskMat = st.maskMat := by
  unfold backfillStateAt
  by_cases hu : isUnset (st.mergeMat.get p.y p.x) = true
  · simp only [hu, if_true]
  · simp only [hu]; rfl

theorem foldl_preserves {α β : Type} (body : α → β → α) (I : α → Prop)
    (l : List β) (hbody : ∀ a b, b ∈ l → I a → I (body a b)) (a : α) (ha : I a) :
    I (l.foldl body a) := by
  induction l generalizing a with
  | nil => exact ha
  | cons b bs ih =>
    rw [List.foldl_cons]
    exact ih (fun a2 b2 hmem => hbody a2 b2 (List.mem_cons_of_mem b hmem)) _
      (hbody a b (List.mem_cons_self b bs) ha)

theorem copyMergeToMask_dims (mergeMat : Mat Vec3b) (maskMat : Mat UChar) :
    (copyMergeToMask mergeMat maskMat).rows = maskMat.rows ∧
    (copyMergeToMask mergeMat maskMat).cols = maskMat.cols := by
  unfold copyMergeToMask
  exact foldl_preserves (copyMergeToMaskAt mergeMat)
    (fun m => m.rows = maskMat.rows ∧ m.cols = maskMat.cols) _
    (fun a b _ h => h) maskMat ⟨rfl, rfl⟩

/-! ## No pixel of the composite is written twice -/

/-- The walk invariant: the mask buffer has the size of `srmTags` and the
trace is in order. -/
theorem perTagStep_invariant {σ : Type} (capture : CaptureRegionMask σ) (srmTags : Mat Vec3b)
    (hnz : ∀ y x, y < srmTags.rows → x < srmTags.cols → srmTags.get y x ≠ Vec3b.mk 0 0 0)
    (st : Accum σ) (tag : Int)
    (h : (st.maskMat.rows = srmTags.rows ∧ st.maskMat.cols = srmTags.cols) ∧ TraceOk st) :
    ((perTagStep capture srmTags st tag).state.maskMat.rows = srmTags.rows ∧
      (perTagStep capture srmTags st tag).state.maskMat.cols = srmTags.cols) ∧
    TraceOk (perTagStep capture srmTags st tag).state := by
  obtain ⟨⟨hr, hc⟩, ht⟩ := h
  have hd := copyMergeToMask_dims st.mergeMat st.maskMat
  have hr1 : (afterCapture capture st tag).2.maskMat.rows = srmTags.rows := hd.1.trans hr
  have hc1 : (afterCapture capture st tag).2.maskMat.cols = srmTags.cols := hd.2.trans hc
  have ht1 : TraceOk (afterCapture capture st tag).2 := ht
  unfold perTagStep
  by_cases hw : (afterCapture capture st tag).1 = true
  · simp only [hw, if_true]
    unfold commitLocations
    refine forEach_preserves (commitAt srmTags)
      (fun s => (s.maskMat.rows = srmTags.rows ∧ s.maskMat.cols = srmTags.cols) ∧ TraceOk s)
      _ ?_ _ ⟨⟨hr1, hc1⟩, ht1⟩
    intro a p hp ha
    rw [commitAt_maskMat]
    refine ⟨ha.1, commitAt_traceOk srmTags a p ?_ ha.2⟩
    unfold findNonZero at hp
    have hb := mem_scanOrder.mp (List.mem_filter.mp hp).1
    exact hnz p.y p.x (hr1 ▸ hb.1) (hc1 ▸ hb.2)
  · simp only [hw]
    exact ⟨⟨hr1, hc1⟩, ht1⟩

theorem perTagStep_keeps_set {σ : Type} (capture : CaptureRegionMask σ) (srmTags : Mat Vec3b)
    (st : Accum σ) (tag : Int) (y x : Nat) (v : Vec3b) (hv : v ≠ Vec3b.mk 0 0 0)
    (h : st.mergeMat.get y x = v) :
    (perTagStep capture srmTags st tag).state.mergeMat.get y x = v := by
  have h1 : (afterCapture capture st tag).2.mergeMat.get y x = v := h
  unfold perTagStep
  by_cases hw : (afterCapture capture st tag).1 = true
  · simp only [hw, if_true]
    unfold commitLocations
    refine forEach_preserves (commitAt srmTags) (fun s => s.mergeMat.get y x = v) _ ?_ _ h1
    intro a p _ ha
    rw [commitAt_keeps_set srmTags a p y x (ha ▸ hv)]
    exact ha
  · simp only [hw]
    exact h1

theorem walkTags_keeps_set {σ : Type} (capture : CaptureRegionMask σ) (srmTags : Mat Vec3b)
    (st : Accum σ) (order : List Int) (y x : Nat) (v : Vec3b) (hv : v ≠ Vec3b.mk 0 0 0)
    (h : st.mergeMat.get y x = v) :
    (walkTags capture srmTags st order).state.mergeMat.get y x = v := by
  unfold walkTags
  exact forEach_preserves (perTagStep capture srmTags) (fun s => s.mergeMat.get y x = v) _
    (fun a tag _ ha => perTagStep_keeps_set capture srmTags a tag y x v hv ha) _ h

theorem backfillState_keeps_set {σ : Type} (srmTags : Mat Vec3b) (st : Accum σ) (y x : Nat)
    (h : st.mergeMat.get y x ≠ Vec3b.mk 0 0 0) :
    (backfillState srmTags st).mergeMat.get y x = st.mergeMat.get y x := by
  unfold backfillState
  rw [backfillState_foldl, if_neg]
  exact fun hh => h ((isUnset_iff_eq _).mp hh.2)

theorem accumulateFrom_keeps_set {σ : Type} (capture : CaptureRegionMask σ)
    (srmTags : Mat Vec3b) (st : Accum σ) (order : List Int) (y x : Nat)
    (h : st.mergeMat.get y x ≠ Vec3b.mk 0 0 0) :
    (accumulateFrom capture srmTags st order).state.mergeMat.get y x = st.mergeMat.get y x := by
  have hw := walkTags_keeps_set capture srmTags st order y x _ h rfl
  unfold accumulateFrom
  cases hr : walkTags capture srmTags st order with
  | finished st1 =>
    rw [hr] at hw
    simp only [Outcome.state] at hw ⊢
    rw [backfillState_keeps_set srmTags st1 y x (hw ▸ h), hw]
  | assertFailed st1 =>
    rw [hr] at hw
    exact hw

theorem accumulateFrom_traceOk {σ : Type} (capture : CaptureRegionMask σ) (srmTags : Mat Vec3b)
    (hnz : ∀ y x, y < srmTags.rows → x < srmTags.cols → srmTags.get y x ≠ Vec3b.mk 0 0 0)
    (st : Accum σ) (order : List Int)
    (h : (st.maskMat.rows = srmTags.rows ∧ st.maskMat.cols = srmTags.cols) ∧ TraceOk st) :
    TraceOk (accumulateFrom capture srmTags st order).state := by
  have hw : ((walkTags capture srmTags st order).state.maskMat.rows = srmTags.rows ∧
      (walkTags capture srmTags st order).state.maskMat.cols = srmTags.cols) ∧
      TraceOk (walkTags capture srmTags st order).state := by
    unfold walkTags
    exact forEach_preserves (perTagStep capture srmTags)
      (fun s => (s.maskMat.rows = srmTags.rows ∧ s.maskMat.cols = srmTags.cols) ∧ TraceOk s) _
      (fun a tag _ ha => perTagStep_invariant capture srmTags hnz a tag ha) _ h
  unfold accumulateFrom
  cases hr : walkTags capture srmTags st order with
  | finished st1 =>
    rw [hr] at hw
    simp only [Outcome.state] at hw ⊢
    unfold backfillState
    refine foldl_preserves (backfillStateAt srmTags) TraceOk _ ?_ _ hw.2
    intro a p hp ha
    have hb := mem_scanOrder.mp hp
    exact backfillStateAt_traceOk srmTags a p (hnz p.y p.x hb.1 hb.2) ha
  | assertFailed st1 =>
    rw [hr] at hw
    exact hw.2

/-- C1 (no double write).  Let every pixel of `srmTags` differ from
`(0, 0, 0)`, and let accumulation start from the initial state of an image of
the size of `srmTags`.  Then, for every capture collaborator and every tag
order, the trace of the assignments to `mergeMat` made by the whole walk and the
backfill after it (whether the run went through or stopped at the assertion)
names no pixel twice.  Moreover, from any accumulator state whatever, a
composite pixel that is not `(0, 0, 0)` keeps its value through a per-tag step,
through the backfill, and through the rest of the walk followed by the
backfill. -/
theorem composite_written_at_most_once {σ : Type} (capture : CaptureRegionMask σ)
    (srmTags : Mat Vec3b)
    (hnz : ∀ y x, y < srmTags.rows → x < srmTags.cols → srmTags.get y x ≠ Vec3b.mk 0 0 0)
    (garbage : Nat → Nat → UChar) (env : σ) (srmInsideOutOrder : List Int) :
    (accumulate capture srmTags srmTags.rows srmTags.cols garbage env
      srmInsideOutOrder).state.written.Nodup ∧
    (∀ (st : Accum σ) (y x : Nat), st.mergeMat.get y x ≠ Vec3b.mk 0 0 0 →
      (∀ tag, (perTagStep capture srmTags st tag).state.mergeMat.get y x = st.mergeMat.get y x) ∧
      (backfillState srmTags st).mergeMat.get y x = st.mergeMat.get y x ∧
      (∀ rest, (accumulateFrom capture srmTags st rest).state.mergeMat.get y x =
        st.mergeMat.get y x)) := by
  refine ⟨?_, fun st y x h => ⟨fun tag => ?_, ?_, fun rest => ?_⟩⟩
  · have hinit : TraceOk (initialAccum srmTags.rows srmTags.cols garbage env) :=
      ⟨List.nodup_nil, fun p hp => absurd hp (List.not_mem_nil p)⟩
    exact (accumulateFrom_traceOk capture srmTags hnz _ srmInsideOutOrder
      ⟨⟨rfl, rfl⟩, hinit⟩).1
  · exact perTagStep_keeps_set capture srmTags st tag y x _ h rfl
  · exact backfillState_keeps_set srmTags st y x h
  · exact accumulateFrom_keeps_set capture srmTags st rest y x h

/-! ## The commit loop: abort and success -/

theorem findNonZero_nodup (maskMat : Mat UChar) : (findNonZero maskMat).Nodup :=
  List.Nodup.filter _ (scanOrder_nodup _ _)

theorem commitLocations_aborts {σ : Type} (srmTags : Mat Vec3b) (l : List Point)
    (st : Accum σ) (p : Point) (hp : p ∈ l) (hset : st.mergeMat.get p.y p.x ≠ Vec3b.mk 0 0 0) :
    ∃ st1, commitLocations srmTags st l = .assertFailed st1 ∧
      ∀ y x, st.mergeMat.get y x ≠ Vec3b.mk 0 0 0 →
        st1.mergeMat.get y x = st.mergeMat.get y x := by
  induction l generalizing st with
  | nil => exact absurd hp (List.not_mem_nil p)
  | cons b bs ih =>
    unfold commitLocations forEach
    have hkeep := commitAt_keeps_set srmTags st b
    rw [commitAt_eq] at hkeep ⊢
    by_cases hu : isUnset (st.mergeMat.get b.y b.x) = true
    · rw [if_pos hu] at hkeep ⊢
      simp only [Outcome.state] at hkeep
      have hpb : p ≠ b := by
        rintro rfl
        exact hset ((isUnset_iff_eq _).mp hu)
      have hp1 : p ∈ bs := (List.mem_cons.mp hp).resolve_left hpb
      obtain ⟨st1, h1, h2⟩ := ih
        { st with mergeMat := st.mergeMat.put b.y b.x (srmTags.get b.y b.x),
                  written := st.written ++ [b] }
        hp1 (by
          show (st.mergeMat.put b.y b.x (srmTags.get b.y b.x)).get p.y p.x ≠ Vec3b.mk 0 0 0
          rw [hkeep p.y p.x hset]; exact hset)
      refine ⟨st1, h1, fun y x hyx => ?_⟩
      have h4 : (st.mergeMat.put b.y b.x (srmTags.get b.y b.x)).get y x ≠ Vec3b.mk 0 0 0 := by
        rw [hkeep y x hyx]; exact hyx
      exact (h2 y x h4).trans (hkeep y x hyx)
    · rw [if_neg hu]
      exact ⟨st, rfl, fun _ _ _ => rfl⟩

theorem commitLocations_finishes {σ : Type} (srmTags : Mat Vec3b) (l : List Point)
    (hnd : l.Nodup) (st : Accum σ)
    (hfree : ∀ p ∈ l, st.mergeMat.get p.y p.x = Vec3b.mk 0 0 0) :
    ∃ st1, commitLocations srmTags st l = .finished st1 ∧
      (∀ p ∈ l, st1.mergeMat.get p.y p.x = srmTags.get p.y p.x) ∧
      (∀ y x, Point.mk x y ∉ l → st1.mergeMat.get y x = st.mergeMat.get y x) := by
  induction l generalizing st with
  | nil => exact ⟨st, rfl, fun p hp => absurd hp (List.not_mem_nil p), fun _ _ _ => rfl⟩
  | cons b bs ih =>
    have hu : isUnset (st.mergeMat.get b.y b.x) = true :=
      (isUnset_iff_eq _).mpr (hfree b (List.mem_cons_self b bs))
    obtain ⟨hb, hbs⟩ := List.nodup_cons.mp hnd
    have hother : ∀ y x, Point.mk x y ≠ b →
        (st.mergeMat.put b.y b.x (srmTags.get b.y b.x)).get y x = st.mergeMat.get y x := by
      intro y x hne
      rw [Mat.get_put, if_neg]
      rintro ⟨rfl, rfl⟩
      exact hne rfl
    obtain ⟨st1, h1, h2, h3⟩ := ih hbs
      { st with mergeMat := st.mergeMat.put b.y b.x (srmTags.get b.y b.x),
                written := st.written ++ [b] }
      (fun p hp => by
        show (st.mergeMat.put b.y b.x (srmTags.get b.y b.x)).get p.y p.x = Vec3b.mk 0 0 0
        rw [hother p.y p.x (fun h => hb (h ▸ hp))]
        exact hfree p (List.mem_cons_of_mem b hp))
    refine ⟨st1, ?_, ?_, ?_⟩
    · unfold commitLocations forEach
      rw [commitAt_eq, if_pos hu]
      exact h1
    · intro p hp
      rcases List.mem_cons.mp hp with rfl | hp1
      · rw [h3 p.y p.x hb]
        show (st.mergeMat.put p.y p.x (srmTags.get p.y p.x)).get p.y p.x = _
        rw [Mat.get_put, if_pos ⟨rfl, rfl⟩]
      · exact h2 p hp1
    · intro y x hnot
      rw [h3 y x (fun h => hnot (List.mem_cons_of_mem b h))]
      exact hother y x (fun h => hnot (h ▸ List.mem_cons_self b bs))

theorem PixelToVec3b_toUInt32_Vec3BToUID (v : Vec3b) :
    PixelToVec3b (toUInt32 (Vec3BToUID v)) = v := by
  have h0 := v.v0.isLt
  have h1 := v.v1.isLt
  have h2 := v.v2.isLt
  rw [toUInt32_Vec3BToUID]
  have hand : ∀ n : Nat, n &&& 0xFF = n % 256 := fun n => Nat.and_pow_two_sub_one_eq_mod n 8
  cases v with
  | mk a b c =>
    simp only [PixelToVec3b, hand, Nat.shiftRight_eq_div_pow, Vec3b.mk.injEq]
    refine ⟨Fin.ext ?_, Fin.ext ?_, Fin.ext ?_⟩ <;> simp only [Fin.ofNat, Fin.val_mk] <;>
      simp only [] at h0 h1 h2 <;> omega

/-- Instance of C1: on the 2 x 2 raster `demoTags`, with a collaborator that
captures every uncommitted pixel, the trace of the walk over `[5]` and the
backfill has no repetition. -/
theorem composite_written_at_most_once_witness :
    (accumulate captureUncommitted demoTags demoTags.rows demoTags.cols (fun _ _ => 0) ()
      [5]).state.written.Nodup :=
  (composite_written_at_most_once captureUncommitted demoTags
    (fun _ _ _ _ => show PixelToVec3b 5 ≠ Vec3b.mk 0 0 0 by decide)
    (fun _ _ => 0) () [5]).1

/-- C2 (overlap violation).  In a per-tag step whose capture succeeded, if some
pixel `p` set in the captured mask already holds in the composite a colour
other than `(0, 0, 0)` that decodes to a tag different from the tag of
`srmTags` at `p` (the tag about to be written there), then the step stops at
the assertion, and in the state in which it stops the composite at `p` is what
it was before the step: no winner is picked. -/
theorem overlap_violation_aborts {σ : Type} (capture : CaptureRegionMask σ)
    (srmTags : Mat Vec3b) (st : Accum σ) (tag : Int) (p : Point)
    (hcap : (afterCapture capture st tag).1 = true)
    (hp : p ∈ findNonZero (afterCapture capture st tag).2.maskMat)
    (hset : st.mergeMat.get p.y p.x ≠ Vec3b.mk 0 0 0)
    (_hdiff : Vec3BToUID (st.mergeMat.get p.y p.x) ≠ Vec3BToUID (srmTags.get p.y p.x)) :
    ∃ st1, perTagStep capture srmTags st tag = .assertFailed st1 ∧
      st1.mergeMat.get p.y p.x = st.mergeMat.get p.y p.x := by
  obtain ⟨st1, h1, h2⟩ := commitLocations_aborts srmTags
    (findNonZero (afterCapture capture st tag).2.maskMat) (afterCapture capture st tag).2 p hp hset
  refine ⟨st1, ?_, h2 p.y p.x hset⟩
  unfold perTagStep
  simp only [hcap, if_true]
  exact h1

/-- Instance of C2: in `clashState` pixel `(1, 0)` holds tag 1 while `twoTags`
holds tag 2 there; a step that captures every pixel stops at the assertion and
leaves the pixel as it was. -/
theorem overlap_violation_aborts_witness :
    ∃ st1, perTagStep captureEverything twoTags clashState 2 = .assertFailed st1 ∧
      st1.mergeMat.get 0 1 = clashState.mergeMat.get 0 1 :=
  overlap_violation_aborts captureEverything twoTags clashState 2 (Point.mk 1 0)
    rfl (by decide) (by decide) (by decide)

/-- C6, as stated, fails: visiting tag 1 on the raster `twoTags` from the
initial state with a capture that marks both pixels, the step goes through,
pixel `(1, 0)` is set in the captured mask and was unset in the composite, yet
afterwards the composite holds there the colour of tag 2, not the colour
encoding of the visited tag 1. -/
theorem commit_value_counterexample :
    (afterCapture captureEverything twoTagsStart 1).1 = true ∧
    Point.mk 1 0 ∈ findNonZero (afterCapture captureEverything twoTagsStart 1).2.maskMat ∧
    twoTagsStart.mergeMat.get 0 1 = Vec3b.mk 0 0 0 ∧
    (perTagStep captureEverything twoTags twoTagsStart 1).isFinished = true ∧
    (perTagStep captureEverything twoTags twoTagsStart 1).state.mergeMat.get 0 1 ≠
      PixelToVec3b (toUInt32 1) ∧
    (perTagStep captureEverything twoTags twoTagsStart 1).state.mergeMat.get 0 1 =
      PixelToVec3b (toUInt32 2) := by
  decide

/-- C6 (amended).  In a per-tag step for tag `T` whose capture succeeded: if
every pixel set in the captured mask is still `(0, 0, 0)` in the composite, the
step goes through; and whenever the step goes through, at every pixel set in
the captured mask that was `(0, 0, 0)` in the composite, the composite
afterwards holds the colour that `srmTags` holds at that pixel, which is the
colour encoding of `T` whenever `srmTags` decodes to `T` there. -/
theorem commit_copies_srmTags {σ : Type} (capture : CaptureRegionMask σ)
    (srmTags : Mat Vec3b) (st : Accum σ) (tag : Int)
    (hcap : (afterCapture capture st tag).1 = true) :
    ((∀ p ∈ findNonZero (afterCapture capture st tag).2.maskMat,
        st.mergeMat.get p.y p.x = Vec3b.mk 0 0 0) →
      ∃ st1, perTagStep capture srmTags st tag = .finished st1) ∧
    (∀ st1, perTagStep capture srmTags st tag = .finished st1 →
      ∀ p ∈ findNonZero (afterCapture capture st tag).2.maskMat,
        st.mergeMat.get p.y p.x = Vec3b.mk 0 0 0 →
        st1.mergeMat.get p.y p.x = srmTags.get p.y p.x ∧
        (Vec3BToUID (srmTags.get p.y p.x) = tag →
          st1.mergeMat.get p.y p.x = PixelToVec3b (toUInt32 tag))) := by
  have hstep : perTagStep capture srmTags st tag =
      commitLocations srmTags (afterCapture capture st tag).2
        (findNonZero (afterCapture capture st tag).2.maskMat) := by
    unfold perTagStep
    simp only [hcap, if_true]
  refine ⟨fun hfree => ?_, fun st1 hfin p hp _ => ?_⟩
  · obtain ⟨st1, h1, _⟩ := commitLocations_finishes srmTags _ (findNonZero_nodup _)
      (afterCapture capture st tag).2 hfree
    exact ⟨st1, hstep.trans h1⟩
  · have hfree : ∀ q ∈ findNonZero (afterCapture capture st tag).2.maskMat,
        st.mergeMat.get q.y q.x = Vec3b.mk 0 0 0 := by
      intro q hq
      by_contra hne
      obtain ⟨st2, h2, _⟩ := commitLocations_aborts srmTags _ (afterCapture capture st tag).2
        q hq hne
      rw [hstep, h2] at hfin
      cases hfin
    obtain ⟨st2, h1, h2, _⟩ := commitLocations_finishes srmTags _ (findNonZero_nodup _)
      (afterCapture capture st tag).2 hfree
    rw [hstep, h1] at hfin
    cases hfin
    refine ⟨h2 p hp, fun htag => ?_⟩
    rw [h2 p hp, ← htag, PixelToVec3b_toUInt32_Vec3BToUID]

/-- Instance of C6 (amended) at the input of the counterexample: the step
goes through and pixel `(1, 0)` receives the colour of `twoTags` there. -/
theorem commit_copies_srmTags_witness :
    ∃ st1, perTagStep captureEverything twoTags twoTagsStart 1 = .finished st1 ∧
      st1.mergeMat.get 0 1 = twoTags.get 0 1 := by
  obtain ⟨st1, h⟩ := (commit_copies_srmTags captureEverything twoTags twoTagsStart 1 rfl).1
    (by decide)
  exact ⟨st1, h, ((commit_copies_srmTags captureEverything twoTags twoTagsStart 1 rfl).2 st1 h
    (Point.mk 1 0) (by decide) (by decide)).1⟩

/-! ## The depth-first walk visits the forest in preorder -/

theorem recurseSuperpixelIterate_forest {S : Type} (map : TreeMap) (f : S → Int → List Int → S)
    (F : Forest) (hF : Describes map F) (depth : Nat) (hd : F.height < depth) (s : S) :
    recurseSuperpixelIterate map f depth F.roots s = some (visitAll map f F.preorder s) := by
  induction F generalizing depth s with
  | nil =>
    cases depth with
    | zero => exact absurd hd (Nat.lt_irrefl 0)
    | succ d => rfl
  | cons tag children siblings ihc ihs =>
    obtain ⟨hch, hdc, hds⟩ := hF
    cases depth with
    | zero => exact absurd hd (Nat.not_lt_zero _)
    | succ d =>
      have hh : max (children.height + 1) siblings.height < d + 1 := hd
      have h1 : children.height < d := by omega
      have h2 : siblings.height < d + 1 := by omega
      have hsib := ihs hds (d + 1) h2
      have hchild := ihc hdc d h1
      simp only [recurseSuperpixelIterate, Forest.roots, List.foldlM_cons] at hsib ⊢
      rw [hch, hchild]
      simp only [Option.bind_eq_bind, Option.some_bind]
      rw [hsib]
      simp only [visitAll, Forest.preorder, List.foldl_cons, List.foldl_append, hch]

theorem visitAll_lambdaFunc (map : TreeMap) (tags : List Int) (stack : List Int) :
    visitAll map lambdaFunc tags stack = tags.reverse ++ stack := by
  induction tags generalizing stack with
  | nil => rfl
  | cons t ts ih =>
    simp only [visitAll, List.foldl_cons] at ih ⊢
    rw [ih]
    simp [lambdaFunc]

theorem popAll_eq (stack order : List Int) : popAll stack order = order ++ stack := by
  induction stack generalizing order with
  | nil => simp [popAll]
  | cons t ts ih => simp [popAll, ih]

theorem insideOutOrder_forest (map : TreeMap) (F : Forest) (hF : Describes map F)
    (depth : Nat) (hd : F.height < depth) :
    insideOutOrder depth map F.roots = some F.preorder.reverse := by
  unfold insideOutOrder
  rw [recurseSuperpixelIterate_forest map lambdaFunc F hF depth hd, visitAll_lambdaFunc]
  simp only [popAll_eq, List.append_nil, List.nil_append]

/-! ## Tags of the map and tags of the forest -/

theorem mem_keys_of_children (map : TreeMap) (k c : Int) (h : c ∈ map.children k) :
    k ∈ map.keys := by
  induction map with
  | nil => simp [TreeMap.children, List.lookup] at h
  | cons e es ih =>
    obtain ⟨k1, cs1⟩ := e
    by_cases hk : k = k1
    · subst hk
      exact List.mem_cons_self _ _
    · have hbeq : (k == k1) = false := by simpa using hk
      have h1 : c ∈ TreeMap.children es k := by
        simpa [TreeMap.children, List.lookup, hbeq] using h
      exact List.mem_cons_of_mem _ (ih h1)

theorem roots_subset_preorder (F : Forest) : ∀ t ∈ F.roots, t ∈ F.preorder := by
  induction F with
  | nil => intro t h; exact h
  | cons tag children siblings _ ihs =>
    intro t h
    rcases List.mem_cons.mp h with rfl | h1
    · exact List.mem_cons_self _ _
    · exact List.mem_cons_of_mem _ (List.mem_append_right _ (ihs t h1))

theorem edge_sublist_preorder (map : TreeMap) (F : Forest) (hF : Describes map F) (a c : Int)
    (ha : a ∈ F.preorder) (hc : c ∈ map.children a) : [a, c].Sublist F.preorder := by
  induction F with
  | nil => exact absurd ha (List.not_mem_nil a)
  | cons tag children siblings ihc ihs =>
    obtain ⟨hch, hdc, hds⟩ := hF
    have ha1 : a = tag ∨ a ∈ children.preorder ++ siblings.preorder := List.mem_cons.mp ha
    show [a, c].Sublist (tag :: (children.preorder ++ siblings.preorder))
    rcases ha1 with rfl | ha2
    · rw [hch] at hc
      exact List.Sublist.cons₂ _ (List.singleton_sublist.mpr
        (List.mem_append_left _ (roots_subset_preorder children c hc)))
    · rcases List.mem_append.mp ha2 with h1 | h1
      · exact List.Sublist.cons _ ((ihc hdc h1).trans (List.sublist_append_left _ _))
      · exact List.Sublist.cons _ ((ihs hds h1).trans (List.sublist_append_right _ _))

theorem indexOf_lt_of_sublist (l : List Int) (hnd : l.Nodup) (a b : Int)
    (h : [a, b].Sublist l) : l.indexOf a < l.indexOf b := by
  induction l with
  | nil => cases h
  | cons x xs ih =>
    obtain ⟨hx, hxs⟩ := List.nodup_cons.mp hnd
    cases h with
    | cons _ h1 =>
      have ha : a ∈ xs := h1.subset (List.mem_cons_self _ _)
      have hb : b ∈ xs := h1.subset (List.mem_cons_of_mem _ (List.mem_cons_self _ _))
      have hxa : x ≠ a := fun e => hx (e ▸ ha)
      have hxb : x ≠ b := fun e => hx (e ▸ hb)
      rw [List.indexOf_cons_ne _ hxa, List.indexOf_cons_ne _ hxb]
      exact Nat.succ_lt_succ (ih hxs h1)
    | cons₂ _ h1 =>
      have hb : b ∈ xs := List.singleton_sublist.mp h1
      have hxb : a ≠ b := fun e => hx (e ▸ hb)
      rw [List.indexOf_cons_self, List.indexOf_cons_ne _ hxb]
      exact Nat.succ_pos _

/-! ## Claims on the inside-out order -/

/-- C10 (children before parents).  For every containment tree, the walk
returns an order as soon as the recursion bound exceeds the height of the
forest, and whenever tag `d` is nested inside tag `a`, directly (`a` is the
parent of `d`) or through intermediate tags, both occur in
`srmInsideOutOrder` and `d` comes before `a`. -/
theorem inside_out_children_before_parents (containsTreeMap : TreeMap) (rootTags : List Int)
    (F : Forest) (h : IsContainmentTree containsTreeMap rootTags F) :
    ∃ srmInsideOutOrder,
      (∀ depth, F.height < depth →
        insideOutOrder depth containsTreeMap rootTags = some srmInsideOutOrder) ∧
      ∀ a d, IsDescendant containsTreeMap a d →
        a ∈ srmInsideOutOrder ∧ d ∈ srmInsideOutOrder ∧
        srmInsideOutOrder.indexOf d < srmInsideOutOrder.indexOf a := by
  refine ⟨F.preorder.reverse, fun depth hd => ?_, ?_⟩
  · rw [h.roots_eq]
    exact insideOutOrder_forest containsTreeMap F h.describes depth hd
  · have hnd : F.preorder.reverse.Nodup := List.nodup_reverse.mpr h.tags_nodup
    have hedge : ∀ a c, c ∈ containsTreeMap.children a →
        a ∈ F.preorder.reverse ∧ c ∈ F.preorder.reverse ∧
        F.preorder.reverse.indexOf c < F.preorder.reverse.indexOf a := by
      intro a c hc
      have ha : a ∈ F.preorder := h.keys_mem a (mem_keys_of_children containsTreeMap a c hc)
      have hsub := edge_sublist_preorder containsTreeMap F h.describes a c ha hc
      have hrev : [c, a].Sublist F.preorder.reverse := List.reverse_sublist.mpr hsub
      exact ⟨hrev.subset (List.mem_cons_of_mem _ (List.mem_cons_self _ _)),
        hrev.subset (List.mem_cons_self _ _), indexOf_lt_of_sublist _ hnd c a hrev⟩
    intro a d hdesc
    unfold IsDescendant at hdesc
    induction hdesc with
    | single hc => exact hedge a _ hc
    | tail _ hc ih =>
      obtain ⟨_, hm2, hm3⟩ := hedge _ _ hc
      exact ⟨ih.1, hm2, Nat.lt_trans hm3 ih.2.2⟩

/-- Instance of C10 on `demoForest`: every nested tag comes before the tag it
is nested in; in particular 4, nested in 2 which is nested in 1, comes before
1. -/
theorem inside_out_children_before_parents_witness :
    IsDescendant demoTreeMap 1 4 ∧
    ∃ srmInsideOutOrder,
      (∀ depth, demoForest.height < depth →
        insideOutOrder depth demoTreeMap [1, 5] = some srmInsideOutOrder) ∧
      ∀ a d, IsDescendant demoTreeMap a d →
        a ∈ srmInsideOutOrder ∧ d ∈ srmInsideOutOrder ∧
        srmInsideOutOrder.indexOf d < srmInsideOutOrder.indexOf a :=
  ⟨Relation.TransGen.tail
      (Relation.TransGen.single (show (2 : Int) ∈ demoTreeMap.children 1 by decide))
      (show (4 : Int) ∈ demoTreeMap.children 2 by decide),
   inside_out_children_before_parents demoTreeMap [1, 5] demoForest
    { keys_nodup := by decide
      describes := by
        unfold demoForest
        simp only [Describes]
        decide
      roots_eq := rfl
      tags_nodup := by decide
      keys_mem := by decide }⟩

/-! ## The inside-out order of a resolved containment tree -/

theorem foldl_congr_mem {α β : Type} (f g : α → β → α) (l : List β) (a : α)
    (h : ∀ acc, ∀ b ∈ l, f acc b = g acc b) : l.foldl f a = l.foldl g a := by
  induction l generalizing a with
  | nil => rfl
  | cons b bs ih =>
    rw [List.foldl_cons, List.foldl_cons, h a b (List.mem_cons_self _ _)]
    exact ih _ (fun acc c hc => h acc c (List.mem_cons_of_mem _ hc))

theorem tagsAdler_congr (my_adler32 : Nat → List UChar → Nat) (m1 m2 : Mat Vec3b)
    (hrows : m1.rows = m2.rows) (hcols : m1.cols = m2.cols)
    (hpx : ∀ y x, y < m2.rows → x < m2.cols → m1.get y x = m2.get y x) :
    tagsAdler my_adler32 m1 = tagsAdler my_adler32 m2 := by
  unfold tagsAdler
  rw [hrows, hcols]
  apply foldl_congr_mem
  intro acc p hp
  simp only []
  rw [hpx p.y p.x (mem_scanOrder.mp hp).1 (mem_scanOrder.mp hp).2]

/-- C4 (checksum short-circuit, equal case).  For every fine-label raster
`srmTags`, every checksum routine and every parser: if the composite `mergeMat`
is pixel for pixel identical to `srmTags`, then `tagsAdlerBeforeMerge` equals
`tagsAdlerAfterMerge` (which here is also the checksum of the composite), the
re-parse is skipped and `spImage` is left as it was. -/
theorem equal_composite_skips_reparse {G : Type} (my_adler32 : Nat → List UChar → Nat)
    (parse : Mat Vec3b → Option G) (srmTags mergeMat : Mat Vec3b) (spImage : G)
    (hrows : mergeMat.rows = srmTags.rows) (hcols : mergeMat.cols = srmTags.cols)
    (hpx : ∀ y x, y < srmTags.rows → x < srmTags.cols → mergeMat.get y x = srmTags.get y x) :
    tagsAdlerBeforeMerge my_adler32 srmTags = tagsAdlerAfterMerge my_adler32 srmTags mergeMat ∧
    tagsAdlerAfterMerge my_adler32 srmTags mergeMat = tagsAdler my_adler32 mergeMat ∧
    reparseIfChanged my_adler32 parse srmTags srmTags mergeMat spImage = .skipped spImage := by
  refine ⟨rfl, (tagsAdler_congr my_adler32 mergeMat srmTags hrows hcols hpx).symm, ?_⟩
  have heq : tagsAdlerBeforeMerge my_adler32 srmTags =
      tagsAdlerAfterMerge my_adler32 srmTags mergeMat := rfl
  unfold reparseIfChanged
  rw [if_pos heq]

/-- Instance of C4 on the 4 x 4 uniform single-tag raster, with Adler-32 as
the checksum and a parser that would return a different graph: the checksums
agree and the graph `0` is kept. -/
theorem equal_composite_skips_reparse_witness :
    tagsAdlerBeforeMerge adler32 uniformTags = tagsAdlerAfterMerge adler32 uniformTags uniformTags ∧
    tagsAdlerAfterMerge adler32 uniformTags uniformTags = tagsAdler adler32 uniformTags ∧
    reparseIfChanged adler32 (fun _ => some 1) uniformTags uniformTags uniformTags (0 : Nat) =
      .skipped 0 :=
  equal_composite_skips_reparse adler32 (fun _ => some 1) uniformTags uniformTags 0 rfl rfl
    (fun _ _ _ _ => rfl)

/-! ## Claims on the tag encoding (`OpenCVUtil.h`) -/

theorem PixelToVec3b_vals (p : Nat) :
    (PixelToVec3b p).v0.val = p % 256 ∧ (PixelToVec3b p).v1.val = p / 256 % 256 ∧
    (PixelToVec3b p).v2.val = p / 65536 % 256 := by
  have hand : ∀ n : Nat, n &&& 0xFF = n % 256 := fun n => Nat.and_pow_two_sub_one_eq_mod n 8
  simp only [PixelToVec3b, hand, Nat.shiftRight_eq_div_pow, Fin.ofNat, Fin.val_mk]
  refine ⟨?_, ?_, ?_⟩ <;> omega

theorem toInt32_toUInt32 (t : Int) (h0 : 0 ≤ t) (h1 : t < 2 ^ 31) : toInt32 (toUInt32 t) = t := by
  unfold toInt32 toUInt32
  have h2 : t % 2 ^ 32 = t := Int.emod_eq_of_lt h0 (by omega)
  rw [h2]
  have h3 : ((t.toNat : Nat) : Int) = t := Int.toNat_of_nonneg h0
  have h4 : t.toNat % 2 ^ 32 = t.toNat := Nat.mod_eq_of_lt (by omega)
  rw [h4, h3, if_pos (by omega)]

/-- C15 (tag to colour to tag).  For every pixel value `p` (in particular every
32-bit value), `Vec3BToUID (PixelToVec3b p)` is `p` with everything above its
low 24 bits cleared, `p & 0x00FFFFFF`; hence for every tag `t` with
`0 <= t <= 0x00FFFFFF`, rendering `t` as a colour triple and decoding it again
returns `t`. -/
theorem decode_of_render :
    (∀ p : Nat, Vec3BToUID (PixelToVec3b p) = ((p &&& 0x00FFFFFF : Nat) : Int)) ∧
    (∀ t : Int, 0 ≤ t → t ≤ 0x00FFFFFF → Vec3BToUID (PixelToVec3b (toUInt32 t)) = t) := by
  have key : ∀ p : Nat, Vec3BToUID (PixelToVec3b p) = ((p % 2 ^ 24 : Nat) : Int) := by
    intro p
    obtain ⟨h0, h1, h2⟩ := PixelToVec3b_vals p
    rw [Vec3BToUID_eq, h0, h1, h2]
    congr 1
    omega
  refine ⟨fun p => ?_, fun t h0 h1 => ?_⟩
  · rw [key p]
    congr 1
    exact (Nat.and_pow_two_sub_one_eq_mod p 24).symm
  · rw [key]
    unfold toUInt32
    have h2 : t % 2 ^ 32 = t := Int.emod_eq_of_lt h0 (by omega)
    rw [h2]
    have h3 : ((t.toNat : Nat) : Int) = t := Int.toNat_of_nonneg h0
    have h4 : t.toNat % 2 ^ 24 = t.toNat := Nat.mod_eq_of_lt (by omega)
    rw [h4, h3]

/-- Instance of C15 at the tag `0x123456`. -/
theorem decode_of_render_witness :
    Vec3BToUID (PixelToVec3b (toUInt32 0x123456)) = 0x123456 :=
  decode_of_render.2 0x123456 (by decide) (by decide)

/-- C16 (colour to tag to colour).  For every colour triple `v`,
`PixelToVec3b (Vec3BToUID v)` equals `v` channel for channel; hence
`Vec3BToUID` is injective: two pixels decode to the same tag only if their
colours are identical. -/
theorem render_of_decode :
    (∀ v : Vec3b,
      (PixelToVec3b (toUInt32 (Vec3BToUID v))).v0 = v.v0 ∧
      (PixelToVec3b (toUInt32 (Vec3BToUID v))).v1 = v.v1 ∧
      (PixelToVec3b (toUInt32 (Vec3BToUID v))).v2 = v.v2) ∧
    Function.Injective Vec3BToUID := by
  refine ⟨fun v => ?_, fun a b hab => ?_⟩
  · rw [PixelToVec3b_toUInt32_Vec3BToUID]
    exact ⟨rfl, rfl, rfl⟩
  · rw [← PixelToVec3b_toUInt32_Vec3BToUID a, ← PixelToVec3b_toUInt32_Vec3BToUID b, hab]

/-- C17 (tag range).  For every colour triple `v`, `Vec3BToUID v` equals
`(R << 16) | (G << 8) | B`, lies between `0` and `0x00FFFFFF` (so it fits a
signed 32-bit integer), and is never negative; in particular it is never
`-1`. -/
theorem decoded_tag_range (v : Vec3b) :
    Vec3BToUID v = (((v.v2.val <<< 16) ||| (v.v1.val <<< 8) ||| v.v0.val : Nat) : Int) ∧
    0 ≤ Vec3BToUID v ∧ Vec3BToUID v ≤ 0x00FFFFFF ∧
    -(2 : Int) ^ 31 ≤ Vec3BToUID v ∧ Vec3BToUID v < 2 ^ 31 ∧
    Vec3BToUID v ≠ -1 := by
  have h0 := v.v0.isLt
  have h1 := v.v1.isLt
  have h2 := v.v2.isLt
  have hp := packed_eq v.v2.val v.v1.val v.v0.val h1 h0
  have he := Vec3BToUID_eq v
  refine ⟨?_, ?_, ?_, ?_, ?_, ?_⟩
  · rw [hp]; exact he
  all_goals omega

/-! ## The stack and the pop loop -/

theorem popLoop_eq (stack order : List Int) : popLoop stack order = ([], order ++ stack) := by
  induction stack generalizing order with
  | nil => simp [popLoop]
  | cons t ts ih => simp [popLoop, ih]

theorem foldl_lambdaFunc (calls : List (Int × List Int)) (stack : List Int) :
    calls.foldl (fun s c => lambdaFunc s c.1 c.2) stack =
      (calls.map Prod.fst).reverse ++ stack := by
  induction calls generalizing stack with
  | nil => rfl
  | cons c cs ih =>
    rw [List.foldl_cons, ih]
    simp [lambdaFunc]

/-- Any visitor sees what the recording visitor records: running the walk with
visitor `f` from the state reached after the invocations `calls` gives the
state reached after the invocations that the recording walk returns. -/
theorem recurseSuperpixelIterate_record {S : Type} (map : TreeMap)
    (f : S → Int → List Int → S) (s0 : S) (depth : Nat) (tags : List Int)
    (calls : List (Int × List Int)) :
    recurseSuperpixelIterate map f depth tags (calls.foldl (fun s c => f s c.1 c.2) s0) =
      (recurseSuperpixelIterate map recordCall depth tags calls).map
        (fun all => all.foldl (fun s c => f s c.1 c.2) s0) := by
  induction depth generalizing tags calls with
  | zero => rfl
  | succ d ih =>
    induction tags generalizing calls with
    | nil => rfl
    | cons t ts iht =>
      simp only [recurseSuperpixelIterate, List.foldlM_cons] at iht ⊢
      have hstep : f (calls.foldl (fun s c => f s c.1 c.2) s0) t (map.children t) =
          (recordCall calls t (map.children t)).foldl (fun s c => f s c.1 c.2) s0 := by
        simp [recordCall, List.foldl_append]
      rw [hstep, ih]
      cases hr : recurseSuperpixelIterate map recordCall d (map.children t)
          (recordCall calls t (map.children t)) with
      | none => rfl
      | some calls1 =>
        simp only [Option.map_some', Option.bind_eq_bind, Option.some_bind]
        exact iht calls1

/-- C20 (stack linearisation).  Whatever sequence of invocations the visitor
lambda receives, the pop loop ends with `insideOutStack` empty and with
`srmInsideOutOrder` equal to the reverse of the sequence of visited tags (last
visited tag first), of the same length.  And for every map, root list and
recursion bound, the invocations are those made by `recurseSuperpixelIterate`:
if the walk returns, `srmInsideOutOrder` is the reverse of the tags it visited,
and if it does not, there is no order. -/
theorem inside_out_is_reversed_visit_sequence :
    (∀ calls : List (Int × List Int),
      popLoop (stackAfter calls) [] = ([], (calls.map Prod.fst).reverse) ∧
      (popLoop (stackAfter calls) []).2.length = calls.length ∧
      popAll (stackAfter calls) [] = (popLoop (stackAfter calls) []).2) ∧
    (∀ (containsTreeMap : TreeMap) (rootTags : List Int) (depth : Nat),
      insideOutOrder depth containsTreeMap rootTags =
        (recurseSuperpixelIterate containsTreeMap recordCall depth rootTags []).map
          (fun calls => (calls.map Prod.fst).reverse)) := by
  have hstack : ∀ calls : List (Int × List Int),
      stackAfter calls = (calls.map Prod.fst).reverse := by
    intro calls
    unfold stackAfter
    rw [foldl_lambdaFunc, List.append_nil]
  refine ⟨fun calls => ?_, fun map roots depth => ?_⟩
  · rw [popLoop_eq, popAll_eq, hstack]
    simp
  · have h := recurseSuperpixelIterate_record map lambdaFunc [] depth roots []
    simp only [List.foldl_nil] at h
    unfold insideOutOrder
    rw [h]
    cases recurseSuperpixelIterate map recordCall depth roots [] with
    | none => rfl
    | some calls =>
      simp only [Option.map_some', popAll_eq, List.nil_append]
      rw [foldl_lambdaFunc, List.append_nil]

theorem decoded_tag_bounds (v : Vec3b) : 0 ≤ Vec3BToUID v ∧ Vec3BToUID v < 2 ^ 24 := by
  have h0 := v.v0.isLt
  have h1 := v.v1.isLt
  have h2 := v.v2.isLt
  rw [Vec3BToUID_eq]
  omega

/-! ## The sorted set -/

theorem mem_setInsert (x y : Int) (s : List Int) : y ∈ setInsert x s ↔ y = x ∨ y ∈ s := by
  induction s with
  | nil => simp [setInsert]
  | cons z zs ih =>
    unfold setInsert
    by_cases h1 : x < z
    · simp [h1]
    · by_cases h2 : x = z
      · subst h2
        simp
      · simp only [h1, h2, if_false, List.mem_cons, ih]
        tauto

theorem setInsert_sorted (x : Int) (s : List Int) (hs : s.Pairwise (· < ·)) :
    (setInsert x s).Pairwise (· < ·) := by
  induction s with
  | nil => simp [setInsert]
  | cons z zs ih =>
    obtain ⟨hz, hzs⟩ := List.pairwise_cons.mp hs
    unfold setInsert
    by_cases h1 : x < z
    · rw [if_pos h1]
      refine List.pairwise_cons.mpr ⟨?_, hs⟩
      intro a ha
      rcases List.mem_cons.mp ha with rfl | ha1
      · exact h1
      · exact lt_trans h1 (hz a ha1)
    · rw [if_neg h1]
      by_cases h2 : x = z
      · rw [if_pos h2]
        exact hs
      · rw [if_neg h2]
        refine List.pairwise_cons.mpr ⟨?_, ih hzs⟩
        intro a ha
        rcases (mem_setInsert x a zs).mp ha with rfl | ha1
        · omega
        · exact hz a ha1

theorem sorted_nodup (s : List Int) (hs : s.Pairwise (· < ·)) : s.Nodup :=
  List.Pairwise.imp (fun h => ne_of_lt h) hs

theorem recordOtherTag_eq (m : Mat Vec3b) (s : List Int) (c : Point) :
    recordOtherTag m s c =
      if Vec3BToUID (m.get c.y c.x) ∈ s then s else setInsert (Vec3BToUID (m.get c.y c.x)) s := by
  have hr : toInt32 (toUInt32 (Vec3BToUID (m.get c.y c.x))) = Vec3BToUID (m.get c.y c.x) := by
    have h := decoded_tag_bounds (m.get c.y c.x)
    exact toInt32_toUInt32 _ h.1 (by omega)
  unfold recordOtherTag
  simp only [hr]
  by_cases h : Vec3BToUID (m.get c.y c.x) ∈ s
  · simp [h]
  · simp [h]

theorem scanCoords_spec (m : Mat Vec3b) (coords : List Point) (s : List Int)
    (hs : s.Pairwise (· < ·)) :
    (coords.foldl (recordOtherTag m) s).Pairwise (· < ·) ∧
    ∀ F, F ∈ coords.foldl (recordOtherTag m) s ↔
      F ∈ s ∨ ∃ c ∈ coords, Vec3BToUID (m.get c.y c.x) = F := by
  induction coords generalizing s with
  | nil => exact ⟨hs, fun F => by simp⟩
  | cons c cs ih =>
    rw [List.foldl_cons]
    have hs1 : (recordOtherTag m s c).Pairwise (· < ·) := by
      rw [recordOtherTag_eq]
      by_cases h : Vec3BToUID (m.get c.y c.x) ∈ s
      · rw [if_pos h]; exact hs
      · rw [if_neg h]; exact setInsert_sorted _ s hs
    have hm1 : ∀ F, F ∈ recordOtherTag m s c ↔ F ∈ s ∨ Vec3BToUID (m.get c.y c.x) = F := by
      intro F
      rw [recordOtherTag_eq]
      by_cases h : Vec3BToUID (m.get c.y c.x) ∈ s
      · rw [if_pos h]
        constructor
        · exact fun hF => Or.inl hF
        · rintro (hF | rfl)
          · exact hF
          · exact h
      · rw [if_neg h, mem_setInsert]
        constructor
        · rintro (rfl | hF)
          · exact Or.inr rfl
          · exact Or.inl hF
        · rintro (hF | rfl)
          · exact Or.inr hF
          · exact Or.inl rfl
    obtain ⟨h1, h2⟩ := ih (recordOtherTag m s c) hs1
    refine ⟨h1, fun F => ?_⟩
    rw [h2 F, hm1 F]
    constructor
    · rintro ((hF | hF) | ⟨c1, hc1, hF⟩)
      · exact Or.inl hF
      · exact Or.inr ⟨c, List.mem_cons_self _ _, hF⟩
      · exact Or.inr ⟨c1, List.mem_cons_of_mem _ hc1, hF⟩
    · rintro (hF | ⟨c1, hc1, hF⟩)
      · exact Or.inl (Or.inl hF)
      · rcases List.mem_cons.mp hc1 with rfl | hc2
        · exact Or.inl (Or.inr hF)
        · exact Or.inr ⟨c1, hc2, hF⟩

theorem overlapScan_foldl (srmCoords : Int → List Point) (m : Mat Vec3b) (l : List Int)
    (em : ExactMap)
    (hsound : ∀ T, (em T).Pairwise (· < ·) ∧
      ∀ F ∈ em T, ∃ c ∈ srmCoords T, Vec3BToUID (m.get c.y c.x) = F) :
    (∀ T, ((l.foldl (fun e tag => Function.update e tag
          ((srmCoords tag).foldl (recordOtherTag m) (e tag))) em) T).Pairwise (· < ·) ∧
      ∀ F ∈ (l.foldl (fun e tag => Function.update e tag
          ((srmCoords tag).foldl (recordOtherTag m) (e tag))) em) T,
        ∃ c ∈ srmCoords T, Vec3BToUID (m.get c.y c.x) = F) ∧
    (∀ T F, F ∈ em T → F ∈ (l.foldl (fun e tag => Function.update e tag
          ((srmCoords tag).foldl (recordOtherTag m) (e tag))) em) T) ∧
    (∀ T ∈ l, ∀ c ∈ srmCoords T, Vec3BToUID (m.get c.y c.x) ∈
        (l.foldl (fun e tag => Function.update e tag
          ((srmCoords tag).foldl (recordOtherTag m) (e tag))) em) T) := by
  induction l generalizing em with
  | nil =>
    exact ⟨hsound, fun _ _ h => h, fun T hT => absurd hT (List.not_mem_nil T)⟩
  | cons t ts ih =>
    rw [List.foldl_cons]
    have hscan := scanCoords_spec m (srmCoords t) (em t) (hsound t).1
    have hsound1 : ∀ T, ((Function.update em t
          ((srmCoords t).foldl (recordOtherTag m) (em t))) T).Pairwise (· < ·) ∧
        ∀ F ∈ (Function.update em t ((srmCoords t).foldl (recordOtherTag m) (em t))) T,
          ∃ c ∈ srmCoords T, Vec3BToUID (m.get c.y c.x) = F := by
      intro T
      by_cases hT : T = t
      · subst hT
        rw [Function.update_same]
        refine ⟨hscan.1, fun F hF => ?_⟩
        rcases (hscan.2 F).mp hF with h | h
        · exact (hsound T).2 F h
        · exact h
      · rw [Function.update_noteq hT]
        exact hsound T
    have hmono1 : ∀ T F, F ∈ em T →
        F ∈ (Function.update em t ((srmCoords t).foldl (recordOtherTag m) (em t))) T := by
      intro T F hF
      by_cases hT : T = t
      · subst hT
        rw [Function.update_same]
        exact (hscan.2 F).mpr (Or.inl hF)
      · rw [Function.update_noteq hT]
        exact hF
    obtain ⟨h1, h2, h3⟩ := ih _ hsound1
    refine ⟨h1, fun T F hF => h2 T F (hmono1 T F hF), fun T hT c hc => ?_⟩
    rcases List.mem_cons.mp hT with rfl | hT1
    · apply h2
      rw [Function.update_same]
      exact (hscan.2 _).mpr (Or.inr ⟨c, hc, rfl⟩)
    · exact h3 T hT1 c hc

/-- C11 (touches-any-pixel containment).  After the overlap scan, for every SRM
tag `T` of `srmSuperpixels` the collection recorded for `T` contains a fine tag
`F` if and only if at least one coordinate owned by `T`'s superpixel decodes
(`Vec3BToUID`) to `F` in the rendered fine-label raster, and the collection
contains no duplicates. -/
theorem exact_map_is_touched_tags (srmCoords : Int → List Point) (renderedTagsMat : Mat Vec3b)
    (srmSuperpixels : List Int) (T : Int) (hT : T ∈ srmSuperpixels) :
    (∀ F, F ∈ overlapScan srmCoords renderedTagsMat srmSuperpixels T ↔
      ∃ c ∈ srmCoords T, Vec3BToUID (renderedTagsMat.get c.y c.x) = F) ∧
    (overlapScan srmCoords renderedTagsMat srmSuperpixels T).Nodup := by
  obtain ⟨h1, _, h3⟩ := overlapScan_foldl srmCoords renderedTagsMat srmSuperpixels
    (fun _ => []) (fun _ => ⟨List.Pairwise.nil, fun F hF => absurd hF (List.not_mem_nil F)⟩)
  refine ⟨fun F => ⟨fun hF => (h1 T).2 F hF, ?_⟩, sorted_nodup _ (h1 T).1⟩
  rintro ⟨c, hc, rfl⟩
  exact h3 T hT c hc

/-- Instance of C11 on `renderedDemo`: SRM tag 1 owns pixels decoding to 5 and
3, and its recorded collection is `[3, 5]`. -/
theorem exact_map_is_touched_tags_witness :
    overlapScan srmCoordsDemo renderedDemo [1, 2] 1 = [3, 5] ∧
    (∀ F, F ∈ overlapScan srmCoordsDemo renderedDemo [1, 2] 1 ↔
      ∃ c ∈ srmCoordsDemo 1, Vec3BToUID (renderedDemo.get c.y c.x) = F) ∧
    (overlapScan srmCoordsDemo renderedDemo [1, 2] 1).Nodup :=
  ⟨by decide, exact_map_is_touched_tags srmCoordsDemo renderedDemo [1, 2] 1 (by decide)⟩

theorem firstSeenOrder_foldl (m : Mat Vec3b) (coords : List Point) (seen : List Int)
    (hs : seen.Nodup) :
    (coords.foldl
      (fun seen coord =>
        let tag := Vec3BToUID (m.get coord.y coord.x)
        if tag ∈ seen then seen else seen ++ [tag]) seen).Nodup ∧
    ∀ F, F ∈ coords.foldl
      (fun seen coord =>
        let tag := Vec3BToUID (m.get coord.y coord.x)
        if tag ∈ seen then seen else seen ++ [tag]) seen ↔
      F ∈ seen ∨ ∃ c ∈ coords, Vec3BToUID (m.get c.y c.x) = F := by
  induction coords generalizing seen with
  | nil => exact ⟨hs, fun F => by simp⟩
  | cons c cs ih =>
    rw [List.foldl_cons]
    by_cases h : Vec3BToUID (m.get c.y c.x) ∈ seen
    · simp only [h, if_true]
      obtain ⟨h1, h2⟩ := ih seen hs
      refine ⟨h1, fun F => ?_⟩
      rw [h2 F]
      constructor
      · rintro (hF | ⟨c1, hc1, hF⟩)
        · exact Or.inl hF
        · exact Or.inr ⟨c1, List.mem_cons_of_mem _ hc1, hF⟩
      · rintro (hF | ⟨c1, hc1, hF⟩)
        · exact Or.inl hF
        · rcases List.mem_cons.mp hc1 with rfl | hc2
          · exact Or.inl (hF ▸ h)
          · exact Or.inr ⟨c1, hc2, hF⟩
    · simp only [h, if_false]
      have hs1 : (seen ++ [Vec3BToUID (m.get c.y c.x)]).Nodup := by
        rw [List.nodup_append]
        refine ⟨hs, List.nodup_singleton _, ?_⟩
        intro a ha ha1
        rw [List.mem_singleton] at ha1
        exact h (ha1 ▸ ha)
      obtain ⟨h1, h2⟩ := ih _ hs1
      refine ⟨h1, fun F => ?_⟩
      rw [h2 F, List.mem_append, List.mem_singleton]
      constructor
      · rintro ((hF | hF) | ⟨c1, hc1, hF⟩)
        · exact Or.inl hF
        · exact Or.inr ⟨c, List.mem_cons_self _ _, hF.symm⟩
        · exact Or.inr ⟨c1, List.mem_cons_of_mem _ hc1, hF⟩
      · rintro (hF | ⟨c1, hc1, hF⟩)
        · exact Or.inl (Or.inl hF)
        · rcases List.mem_cons.mp hc1 with rfl | hc2
          · exact Or.inl (Or.inr hF.symm)
          · exact Or.inr ⟨c1, hc2, hF⟩

/-- C12, as stated, fails: on `renderedDemo` the coordinates of SRM tag 1 meet
the fine tags in the order 5, 3, but the collection recorded for tag 1, a
`std::set`, is enumerated as 3, 5. -/
theorem first_seen_order_counterexample :
    firstSeenOrder renderedDemo (srmCoordsDemo 1) = [5, 3] ∧
    overlapScan srmCoordsDemo renderedDemo [1, 2] 1 = [3, 5] ∧
    overlapScan srmCoordsDemo renderedDemo [1, 2] 1 ≠
      firstSeenOrder renderedDemo (srmCoordsDemo 1) := by
  decide

/-- C12 (amended).  For every SRM tag `T` of `srmSuperpixels`, the fine tags
recorded for `T` are enumerated in strictly ascending order of tag value; they
are the tags of the first-seen list, each once, rearranged in that order. -/
theorem exact_map_enumerates_ascending (srmCoords : Int → List Point)
    (renderedTagsMat : Mat Vec3b) (srmSuperpixels : List Int) (T : Int)
    (hT : T ∈ srmSuperpixels) :
    (overlapScan srmCoords renderedTagsMat srmSuperpixels T).Pairwise (· < ·) ∧
    (overlapScan srmCoords renderedTagsMat srmSuperpixels T).Perm
      (firstSeenOrder renderedTagsMat (srmCoords T)) := by
  obtain ⟨h1, _, h3⟩ := overlapScan_foldl srmCoords renderedTagsMat srmSuperpixels
    (fun _ => []) (fun _ => ⟨List.Pairwise.nil, fun F hF => absurd hF (List.not_mem_nil F)⟩)
  obtain ⟨hf1, hf2⟩ := firstSeenOrder_foldl renderedTagsMat (srmCoords T) [] List.nodup_nil
  refine ⟨(h1 T).1, (List.perm_ext_iff_of_nodup (sorted_nodup _ (h1 T).1) hf1).mpr ?_⟩
  intro F
  refine Iff.trans ?_ (hf2 F).symm
  constructor
  · intro hF
    exact Or.inr ((h1 T).2 F hF)
  · rintro (hF | ⟨c, hc, rfl⟩)
    · exact absurd hF (List.not_mem_nil F)
    · exact h3 T hT c hc

/-- Instance of C12 (amended) at the input of the counterexample. -/
theorem exact_map_enumerates_ascending_witness :
    (overlapScan srmCoordsDemo renderedDemo [1, 2] 1).Pairwise (· < ·) ∧
    (overlapScan srmCoordsDemo renderedDemo [1, 2] 1).Perm
      (firstSeenOrder renderedDemo (srmCoordsDemo 1)) :=
  exact_map_enumerates_ascending srmCoordsDemo renderedDemo [1, 2] 1 (by decide)

/-! ## The region-selection loop -/

theorem addCoord_foldl (tagAt : Point → Int) (l : List Point) (g : SuperpixelImage) :
    (∀ tag, (l.foldl (fun g p => g.addCoord (tagAt p) p) g).coordsOf tag =
      g.coordsOf tag ++ l.filter (fun p => decide (tagAt p = tag))) ∧
    (∀ tag, tag ∈ (l.foldl (fun g p => g.addCoord (tagAt p) p) g).superpixels ↔
      tag ∈ g.superpixels ∨ ∃ p ∈ l, tagAt p = tag) ∧
    (g.superpixels.Nodup → (l.foldl (fun g p => g.addCoord (tagAt p) p) g).superpixels.Nodup) := by
  induction l generalizing g with
  | nil => exact ⟨fun tag => by simp, fun tag => by simp, fun h => h⟩
  | cons q qs ih =>
    rw [List.foldl_cons]
    obtain ⟨h1, h2, h3⟩ := ih (g.addCoord (tagAt q) q)
    refine ⟨fun tag => ?_, fun tag => ?_, fun hnd => h3 ?_⟩
    · rw [h1 tag]
      by_cases ht : tagAt q = tag
      · subst ht
        simp [SuperpixelImage.addCoord, List.filter_cons]
      · have ht1 : tag ≠ tagAt q := fun h => ht h.symm
        simp [SuperpixelImage.addCoord, List.filter_cons, ht, Function.update_noteq ht1]
    · rw [h2 tag]
      have hmem : tag ∈ (g.addCoord (tagAt q) q).superpixels ↔
          tag ∈ g.superpixels ∨ tagAt q = tag := by
        unfold SuperpixelImage.addCoord
        by_cases hq : tagAt q ∈ g.superpixels
        · simp only [hq, if_true]
          constructor
          · exact fun h => Or.inl h
          · rintro (h | h)
            · exact h
            · exact h ▸ hq
        · simp only [hq, if_false, List.mem_append, List.mem_singleton]
          constructor
          · rintro (h | h)
            · exact Or.inl h
            · exact Or.inr h.symm
          · rintro (h | h)
            · exact Or.inl h
            · exact Or.inr h.symm
      rw [hmem]
      constructor
      · rintro ((h | h) | ⟨p, hp, h⟩)
        · exact Or.inl h
        · exact Or.inr ⟨q, List.mem_cons_self _ _, h⟩
        · exact Or.inr ⟨p, List.mem_cons_of_mem _ hp, h⟩
      · rintro (h | ⟨p, hp, h⟩)
        · exact Or.inl (Or.inl h)
        · rcases List.mem_cons.mp hp with rfl | hp1
          · exact Or.inl (Or.inr h)
          · exact Or.inr ⟨p, hp1, h⟩
    · unfold SuperpixelImage.addCoord
      by_cases hq : tagAt q ∈ g.superpixels
      · simp only [hq, if_true]
        exact hnd
      · simp only [hq, if_false]
        rw [List.nodup_append]
        refine ⟨hnd, List.nodup_singleton _, ?_⟩
        intro a ha ha1
        rw [List.mem_singleton] at ha1
        exact hq (ha1 ▸ ha)

theorem addEdge_keeps (g : SuperpixelImage) (a b : Int) :
    (g.addEdge a b).superpixels = g.superpixels ∧ (g.addEdge a b).coordsOf = g.coordsOf := by
  unfold SuperpixelImage.addEdge
  by_cases h1 : a = b
  · simp [h1]
  · by_cases h2 : (a, b) ∈ g.edges ∨ (b, a) ∈ g.edges
    · simp [h1, h2]
    · simp [h1, h2]

/-- C18 (parse completeness).  For every non-empty label raster the parse
succeeds, the resulting superpixels have pairwise distinct tags, and every
raster coordinate belongs to exactly one of them, the one whose tag is the
pixel's decoded tag, in whose collection it occurs once; the union of all
coordinate collections is exactly the set of raster coordinates. -/
theorem parse_completeness (tagsImg : Mat Vec3b) (hrows : tagsImg.rows ≠ 0)
    (hcols : tagsImg.cols ≠ 0) :
    ∃ g, SuperpixelImage.parse tagsImg = some g ∧
      g.superpixels.Nodup ∧
      (∀ p : Point, p.y < tagsImg.rows → p.x < tagsImg.cols →
        Vec3BToUID (tagsImg.get p.y p.x) ∈ g.superpixels ∧
        (∀ tag, p ∈ g.coordsOf tag ↔ tag = Vec3BToUID (tagsImg.get p.y p.x)) ∧
        (g.coordsOf (Vec3BToUID (tagsImg.get p.y p.x))).count p = 1) ∧
      (∀ p : Point, (∃ tag ∈ g.superpixels, p ∈ g.coordsOf tag) ↔
        p.y < tagsImg.rows ∧ p.x < tagsImg.cols) := by
  obtain ⟨h1, h2, h3⟩ := addCoord_foldl (fun p => Vec3BToUID (tagsImg.get p.y p.x))
    (scanOrder tagsImg.rows tagsImg.cols) SuperpixelImage.empty
  have hkeep : ∀ (l : List Point) (g : SuperpixelImage),
      (l.foldl (SuperpixelImage.scanEdgesAt tagsImg) g).superpixels = g.superpixels ∧
      (l.foldl (SuperpixelImage.scanEdgesAt tagsImg) g).coordsOf = g.coordsOf := by
    intro l
    induction l with
    | nil => intro g; exact ⟨rfl, rfl⟩
    | cons q qs ih =>
      intro g
      rw [List.foldl_cons]
      obtain ⟨i1, i2⟩ := ih (SuperpixelImage.scanEdgesAt tagsImg g q)
      rw [i1, i2]
      unfold SuperpixelImage.scanEdgesAt
      simp only []
      split <;> split <;> simp [addEdge_keeps]
  have hg : (SuperpixelImage.scanCoords tagsImg) = (scanOrder tagsImg.rows tagsImg.cols).foldl
      (fun g p => g.addCoord (Vec3BToUID (tagsImg.get p.y p.x)) p) SuperpixelImage.empty := rfl
  rw [← hg] at h1 h2 h3
  refine ⟨(scanOrder tagsImg.rows tagsImg.cols).foldl (SuperpixelImage.scanEdgesAt tagsImg)
      (SuperpixelImage.scanCoords tagsImg), ?_, ?_, ?_, ?_⟩
  · unfold SuperpixelImage.parse
    rw [if_neg (by simp [hrows, hcols])]
  · rw [(hkeep _ _).1]
    exact h3 List.nodup_nil
  · intro p hy hx
    have hp : p ∈ scanOrder tagsImg.rows tagsImg.cols := mem_scanOrder.mpr ⟨hy, hx⟩
    rw [(hkeep _ _).1, (hkeep _ _).2]
    refine ⟨(h2 _).mpr (Or.inr ⟨p, hp, rfl⟩), fun tag => ?_, ?_⟩
    · rw [h1 tag]
      simp only [SuperpixelImage.empty, List.nil_append, List.mem_filter, decide_eq_true_eq]
      constructor
      · exact fun h => h.2.symm
      · exact fun h => ⟨hp, h.symm⟩
    · rw [h1]
      simp only [SuperpixelImage.empty, List.nil_append]
      exact List.count_eq_one_of_mem (List.Nodup.filter _ (scanOrder_nodup _ _))
        (List.mem_filter.mpr ⟨hp, by simp⟩)
  · intro p
    rw [(hkeep _ _).1, (hkeep _ _).2]
    constructor
    · rintro ⟨tag, _, hp⟩
      rw [h1 tag] at hp
      simp only [SuperpixelImage.empty, List.nil_append, List.mem_filter] at hp
      exact mem_scanOrder.mp hp.1
    · rintro ⟨hy, hx⟩
      have hp : p ∈ scanOrder tagsImg.rows tagsImg.cols := mem_scanOrder.mpr ⟨hy, hx⟩
      refine ⟨Vec3BToUID (tagsImg.get p.y p.x), (h2 _).mpr (Or.inr ⟨p, hp, rfl⟩), ?_⟩
      rw [h1]
      simp only [SuperpixelImage.empty, List.nil_append]
      exact List.mem_filter.mpr ⟨hp, by simp⟩

/-- Instance of C18 on `twoColumns`: the parse yields the superpixels 7 and 9
with two coordinates each. -/
theorem parse_completeness_witness :
    (SuperpixelImage.parse twoColumns).map
        (fun g => (g.superpixels, g.coordsOf 7, g.coordsOf 9)) =
      some ([7, 9], [Point.mk 0 0, Point.mk 0 1], [Point.mk 1 0, Point.mk 1 1]) ∧
    ∃ g, SuperpixelImage.parse twoColumns = some g ∧
      g.superpixels.Nodup ∧
      (∀ p : Point, p.y < twoColumns.rows → p.x < twoColumns.cols →
        Vec3BToUID (twoColumns.get p.y p.x) ∈ g.superpixels ∧
        (∀ tag, p ∈ g.coordsOf tag ↔ tag = Vec3BToUID (twoColumns.get p.y p.x)) ∧
        (g.coordsOf (Vec3BToUID (twoColumns.get p.y p.x))).count p = 1) ∧
      (∀ p : Point, (∃ tag ∈ g.superpixels, p ∈ g.coordsOf tag) ↔
        p.y < twoColumns.rows ∧ p.x < twoColumns.cols) :=
  ⟨by decide, parse_completeness twoColumns (by decide) (by decide)⟩

/-! ## The identical-region merge reaches a fixed point -/

theorem mem_dedupEdges (edges : List (Int × Int)) (e : Int × Int) (h : e ∈ dedupEdges edges) :
    e ∈ edges := by
  have hgen : ∀ (l acc : List (Int × Int)),
      e ∈ l.foldl (fun acc e => if e ∈ acc ∨ (e.2, e.1) ∈ acc then acc else acc ++ [e]) acc →
      e ∈ acc ∨ e ∈ l := by
    intro l
    induction l with
    | nil => intro acc h; exact Or.inl h
    | cons x xs ih =>
      intro acc h
      rw [List.foldl_cons] at h
      rcases ih _ h with h1 | h1
      · by_cases hx : x ∈ acc ∨ (x.2, x.1) ∈ acc
        · rw [if_pos hx] at h1
          exact Or.inl h1
        · rw [if_neg hx] at h1
          rcases List.mem_append.mp h1 with h2 | h2
          · exact Or.inl h2
          · exact Or.inr (List.mem_cons.mpr (Or.inl (List.mem_singleton.mp h2)))
      · exact Or.inr (List.mem_cons_of_mem _ h1)
  rcases hgen edges [] h with h1 | h1
  · exact absurd h1 (List.not_mem_nil e)
  · exact h1

theorem donorAndSurvivor_cases (g : SuperpixelImage) (a b : Int) :
    g.donorAndSurvivor a b = (a, b) ∨ g.donorAndSurvivor a b = (b, a) := by
  unfold SuperpixelImage.donorAndSurvivor
  simp only []
  split
  · exact Or.inl rfl
  · split
    · exact Or.inr rfl
    · split
      · exact Or.inl rfl
      · exact Or.inr rfl

theorem mergePair_edgesLive (g : SuperpixelImage) (donor survivor : Int) (hg : g.EdgesLive)
    (hs : survivor ∈ g.superpixels) (hne : survivor ≠ donor) :
    (g.mergePair donor survivor).EdgesLive := by
  intro e he
  have he1 := mem_dedupEdges _ e he
  obtain ⟨he2, _⟩ := List.mem_filter.mp he1
  obtain ⟨e0, he0, rfl⟩ := List.mem_map.mp he2
  have hlive := hg e0 he0
  have hmem : ∀ t, t ∈ g.superpixels →
      (if t = donor then survivor else t) ∈ g.superpixels.filter (fun t => t != donor) := by
    intro t ht
    by_cases htd : t = donor
    · rw [if_pos htd]
      exact List.mem_filter.mpr ⟨hs, by simpa using hne⟩
    · rw [if_neg htd]
      exact List.mem_filter.mpr ⟨ht, by simpa using htd⟩
  exact ⟨hmem e0.1 hlive.1, hmem e0.2 hlive.2⟩

theorem mergePair_length (g : SuperpixelImage) (donor survivor : Int)
    (hd : donor ∈ g.superpixels) :
    (g.mergePair donor survivor).superpixels.length < g.superpixels.length := by
  show (g.superpixels.filter (fun t => t != donor)).length < g.superpixels.length
  rw [List.length_filter_lt_length_iff_exists]
  exact ⟨donor, hd, by simp⟩

theorem mergeIdentical_found (sourceImage : Mat Vec3b) (g : SuperpixelImage) (e : Int × Int)
    (hfind : g.edges.find? (g.isIdenticalPair sourceImage) = some e) (hg : g.EdgesLive) :
    (g.mergePair (g.donorAndSurvivor e.1 e.2).1 (g.donorAndSurvivor e.1 e.2).2).EdgesLive ∧
    (g.mergePair (g.donorAndSurvivor e.1 e.2).1 (g.donorAndSurvivor e.1 e.2).2).superpixels.length <
      g.superpixels.length := by
  have hmem : e ∈ g.edges := List.mem_of_find?_eq_some hfind
  have hpair : g.isIdenticalPair sourceImage e = true := List.find?_some hfind
  have hne : e.1 ≠ e.2 := by
    unfold SuperpixelImage.isIdenticalPair at hpair
    simp only [Bool.and_eq_true, bne_iff_ne] at hpair
    exact hpair.1
  have hlive := hg e hmem
  rcases donorAndSurvivor_cases g e.1 e.2 with h | h
  · rw [h]
    exact ⟨mergePair_edgesLive g e.1 e.2 hg hlive.2 (fun h => hne h.symm),
      mergePair_length g e.1 e.2 hlive.1⟩
  · rw [h]
    exact ⟨mergePair_edgesLive g e.2 e.1 hg hlive.1 hne, mergePair_length g e.2 e.1 hlive.2⟩

theorem mergeIdentical_terminates (sourceImage : Mat Vec3b) (fuel : Nat) (g : SuperpixelImage)
    (hg : g.EdgesLive) (hfuel : g.superpixels.length < fuel) :
    ∃ g1, SuperpixelImage.mergeIdenticalSuperpixels sourceImage fuel g = some g1 := by
  induction fuel generalizing g with
  | zero => exact absurd hfuel (Nat.not_lt_zero _)
  | succ n ih =>
    unfold SuperpixelImage.mergeIdenticalSuperpixels
    cases hfind : g.edges.find? (g.isIdenticalPair sourceImage) with
    | none => exact ⟨g, rfl⟩
    | some e =>
      obtain ⟨h1, h2⟩ := mergeIdentical_found sourceImage g e hfind hg
      exact ih _ h1 (by omega)

theorem mergeIdentical_fixed (sourceImage : Mat Vec3b) (fuel : Nat) (g g1 : SuperpixelImage)
    (h : SuperpixelImage.mergeIdenticalSuperpixels sourceImage fuel g = some g1) :
    g1.edges.find? (g1.isIdenticalPair sourceImage) = none := by
  induction fuel generalizing g with
  | zero => cases h
  | succ n ih =>
    unfold SuperpixelImage.mergeIdenticalSuperpixels at h
    cases hfind : g.edges.find? (g.isIdenticalPair sourceImage) with
    | none =>
      rw [hfind] at h
      cases h
      exact hfind
    | some e =>
      rw [hfind] at h
      exact ih _ h

theorem mergeIdentical_more_fuel (sourceImage : Mat Vec3b) (fuel : Nat) (g g1 : SuperpixelImage)
    (h : SuperpixelImage.mergeIdenticalSuperpixels sourceImage fuel g = some g1) (k : Nat) :
    SuperpixelImage.mergeIdenticalSuperpixels sourceImage (fuel + k) g = some g1 := by
  induction fuel generalizing g with
  | zero => cases h
  | succ n ih =>
    rw [Nat.succ_add]
    unfold SuperpixelImage.mergeIdenticalSuperpixels at h ⊢
    cases hfind : g.edges.find? (g.isIdenticalPair sourceImage) with
    | none =>
      rw [hfind] at h
      exact h
    | some e =>
      rw [hfind] at h
      exact ih _ h

/-- C19 (identical-merge fixed point).  For every region graph whose adjacency
relation mentions live tags only, `mergeIdenticalSuperpixels(sourceImage)`
completes (any bound above the number of superpixels gives the same result),
in the resulting graph no two adjacent regions have bit-identical
representative colours in `sourceImage`, and invoking the operation again with
the same image returns the resulting graph unchanged. -/
theorem identical_merge_fixed_point (sourceImage : Mat Vec3b) (g : SuperpixelImage)
    (hg : g.EdgesLive) :
    ∃ g1,
      (∀ fuel, g.superpixels.length < fuel →
        SuperpixelImage.mergeIdenticalSuperpixels sourceImage fuel g = some g1) ∧
      (∀ e ∈ g1.edges, e.1 ≠ e.2 →
        g1.repColor sourceImage e.1 ≠ g1.repColor sourceImage e.2) ∧
      (∀ fuel, 0 < fuel →
        SuperpixelImage.mergeIdenticalSuperpixels sourceImage fuel g1 = some g1) := by
  obtain ⟨g1, h1⟩ := mergeIdentical_terminates sourceImage (g.superpixels.length + 1) g hg
    (Nat.lt_succ_self _)
  have hfix := mergeIdentical_fixed sourceImage _ g g1 h1
  refine ⟨g1, fun fuel hfuel => ?_, fun e he hne hcol => ?_, fun fuel hfuel => ?_⟩
  · obtain ⟨k, rfl⟩ : ∃ k, fuel = g.superpixels.length + 1 + k := ⟨fuel - (g.superpixels.length + 1), by omega⟩
    exact mergeIdentical_more_fuel sourceImage _ g g1 h1 k
  · have hnone := List.find?_eq_none.mp hfix e he
    apply hnone
    unfold SuperpixelImage.isIdenticalPair
    simp only [Bool.and_eq_true, bne_iff_ne, beq_iff_eq]
    exact ⟨hne, hcol⟩
  · cases fuel with
    | zero => exact absurd hfuel (Nat.lt_irrefl 0)
    | succ n =>
      unfold SuperpixelImage.mergeIdenticalSuperpixels
      rw [hfix]

/-- Instance of C19 on `threeRegions` and `sourceDemo`: regions 1 and 2 have
the same colour and are merged, region 3 differs, and two superpixels
remain. -/
theorem identical_merge_fixed_point_witness :
    (SuperpixelImage.mergeIdenticalSuperpixels sourceDemo 4 threeRegions).map
        (fun g => (g.superpixels, g.edges)) = some ([1, 3], [(1, 3)]) ∧
    ∃ g1,
      (∀ fuel, threeRegions.superpixels.length < fuel →
        SuperpixelImage.mergeIdenticalSuperpixels sourceDemo fuel threeRegions = some g1) ∧
      (∀ e ∈ g1.edges, e.1 ≠ e.2 →
        g1.repColor sourceDemo e.1 ≠ g1.repColor sourceDemo e.2) ∧
      (∀ fuel, 0 < fuel →
        SuperpixelImage.mergeIdenticalSuperpixels sourceDemo fuel g1 = some g1) :=
  ⟨by decide, identical_merge_fixed_point sourceDemo threeRegions (by
    unfold SuperpixelImage.EdgesLive
    decide)⟩

/-! ## Failure propagation -/

/-- C14 (failure propagation).  (i) If `srmMultiSegment` returns false,
`clusteringCombine` returns false having run no other stage.  (ii) If the
initial `SuperpixelImage::parse` returns false, `clusteringCombine` returns
false having run only these two stages.  (iii) If the two checksums differ
and the re-parse of the composite returns false, `clusteringCombine` returns
false right after it, without the final debug image.  (iv) Whenever `clusteringCombine` returns false, `main` exits with
status 1 and its steps do not include the `imwrite` of the output tags file. -/
theorem failure_propagates {σ G : Type} (c : Collaborators σ G) (rows cols depth : Nat) :
    (c.srmMultiSegment = none →
      clusteringCombine c rows cols depth =
        { returned := some false, events := [.srmMultiSegment] }) ∧
    (∀ srmTags, c.srmMultiSegment = some srmTags → c.parse srmTags = none →
      clusteringCombine c rows cols depth =
        { returned := some false, events := [.srmMultiSegment, .parse] }) ∧
    (∀ (tagsBefore srmTags mergeMat : Mat Vec3b) (spImage : G) (events : List CombineEvent),
      tagsAdlerBeforeMerge c.my_adler32 tagsBefore ≠
        tagsAdlerAfterMerge c.my_adler32 srmTags mergeMat →
      c.parse mergeMat = none →
      finishCombine events
          (reparseIfChanged c.my_adler32 c.parse tagsBefore srmTags mergeMat spImage) =
        { returned := some false, events := events ++ [.reparse] }) ∧
    (∀ r : CombineRun, r.returned = some false →
      (mainAfterCombine r).exitStatus = some 1 ∧
      MainEvent.imwriteOutputTags ∉ (mainAfterCombine r).events) ∧
    ((clusteringCombine c rows cols depth).returned = some false →
      (mainRun c rows cols depth).exitStatus = some 1 ∧
      MainEvent.imwriteOutputTags ∉ (mainRun c rows cols depth).events) := by
  have hmain : ∀ r : CombineRun, r.returned = some false →
      (mainAfterCombine r).exitStatus = some 1 ∧
      MainEvent.imwriteOutputTags ∉ (mainAfterCombine r).events := by
    intro r hr
    unfold mainAfterCombine
    rw [hr]
    refine ⟨rfl, ?_⟩
    intro hmem
    obtain ⟨e, _, he⟩ := List.mem_map.mp hmem
    cases he
  refine ⟨fun h => ?_, fun srmTags h1 h2 => ?_, ?_, hmain, fun h => hmain _ h⟩
  · unfold clusteringCombine
    rw [h]
  · unfold clusteringCombine
    rw [h1]
    simp only [h2]
  · intro tagsBefore srmTags mergeMat spImage events hne hparse
    unfold reparseIfChanged
    rw [if_neg hne, hparse]
    rfl

/-- Instance of C14 on `parseFails`: the parse returns false, so
`clusteringCombine` returns false after two stages and `main` exits with
status 1 without writing the output tags file. -/
theorem failure_propagates_witness :
    clusteringCombine parseFails 4 4 3 =
      { returned := some false, events := [.srmMultiSegment, .parse] } ∧
    (mainRun parseFails 4 4 3).exitStatus = some 1 ∧
    MainEvent.imwriteOutputTags ∉ (mainRun parseFails 4 4 3).events ∧
    finishCombine [.accumulation]
        (reparseIfChanged parseFails.my_adler32 parseFails.parse mutatedComposite uniformTags
          uniformTags 0) =
      { returned := some false, events := [.accumulation] ++ [.reparse] } :=
  ⟨(failure_propagates parseFails 4 4 3).2.1 uniformTags rfl rfl,
   ((failure_propagates parseFails 4 4 3).2.2.2.2 rfl).1,
   ((failure_propagates parseFails 4 4 3).2.2.2.2 rfl).2,
   (failure_propagates parseFails 4 4 3).2.2.1 mutatedComposite uniformTags uniformTags 0
    [.accumulation]
    (by
      set_option maxRecDepth 100000 in
      decide)
    rfl⟩

/-! ## Claims on the block grid -/

theorem blockCount_bounds (size : Nat) :
    size ≤ blockCount size * 4 ∧ blockCount size * 4 < size + 4 := by
  unfold blockCount superpixelDim
  simp only []
  split <;> omega

theorem blockSpan_exact (size : Nat) (h : size ≤ 2147483644) :
    blockSpan size = ((blockCount size * superpixelDim : Nat) : Int) := by
  obtain ⟨_, h2⟩ := blockCount_bounds size
  unfold blockSpan toInt32 superpixelDim
  have h3 : blockCount size * 4 % 2 ^ 32 = blockCount size * 4 := Nat.mod_eq_of_lt (by omega)
  rw [h3, if_pos (by omega)]

theorem blockCount_ceil (n : Nat) : ((blockCount n : Nat) : Int) = ⌈((n : ℚ) / 4)⌉ := by
  obtain ⟨h1, h2⟩ := blockCount_bounds n
  symm
  rw [Int.ceil_eq_iff]
  constructor
  · rw [lt_div_iff₀ (by norm_num : (0 : ℚ) < 4)]
    have h3 : ((blockCount n * 4 : Nat) : ℚ) < ((n + 4 : Nat) : ℚ) := by exact_mod_cast h2
    push_cast at h3 ⊢
    linarith
  · rw [div_le_iff₀ (by norm_num : (0 : ℚ) < 4)]
    have h3 : ((n : Nat) : ℚ) ≤ ((blockCount n * 4 : Nat) : ℚ) := by exact_mod_cast h1
    push_cast at h3 ⊢
    linarith

/-- C21 as stated fails for an image 2147483645 pixels wide (a valid `int`
width): `blockWidth` is `ceil(cols / 4) = 536870912`, the product
`blockWidth * superpixelDim` is `2^31`, which does not fit `int` and comes out
as `-2^31`, and the assertion `(blockWidth * superpixelDim) >= inputImg.cols`
fails. -/
theorem block_grid_assertion_counterexample :
    (2147483645 : Int) < 2 ^ 31 ∧
    blockCount 2147483645 = 536870912 ∧
    ((blockCount 2147483645 : Nat) : Int) = ⌈((2147483645 : ℚ) / 4)⌉ ∧
    blockSpan 2147483645 = -2147483648 ∧
    blockAssertion 2147483645 = false := by
  refine ⟨by decide, by decide, ?_, by decide, by decide⟩
  exact_mod_cast blockCount_ceil 2147483645

/-- C21 (block grid covers the image), amended.  For every image size that is
a value of `int`, `blockWidth` is `ceil(cols / 4)` and `blockHeight` is
`ceil(rows / 4)`, and the grid is minimal: `(blockWidth - 1) * 4 < cols` when
`cols > 0`, likewise for rows.  For sizes up to `2^31 - 4` the product
`blockWidth * superpixelDim` is computed exactly and the assertions
`blockWidth * 4 >= cols` and `blockHeight * 4 >= rows` hold. -/
theorem block_grid_covers_image (cols rows : Nat) (hcols : cols < 2 ^ 31) (hrows : rows < 2 ^ 31) :
    ((blockCount cols : Nat) : Int) = ⌈((cols : ℚ) / 4)⌉ ∧
    ((blockCount rows : Nat) : Int) = ⌈((rows : ℚ) / 4)⌉ ∧
    blockCount cols < 2 ^ 31 ∧ blockCount rows < 2 ^ 31 ∧
    (0 < cols → (blockCount cols - 1) * superpixelDim < cols) ∧
    (0 < rows → (blockCount rows - 1) * superpixelDim < rows) ∧
    (cols ≤ 2147483644 →
      blockSpan cols = ((blockCount cols * superpixelDim : Nat) : Int) ∧
      blockAssertion cols = true) ∧
    (rows ≤ 2147483644 →
      blockSpan rows = ((blockCount rows * superpixelDim : Nat) : Int) ∧
      blockAssertion rows = true) := by
  have hb := blockCount_bounds cols
  have hr := blockCount_bounds rows
  have hassert : ∀ size : Nat, size ≤ 2147483644 →
      blockSpan size = ((blockCount size * superpixelDim : Nat) : Int) ∧
      blockAssertion size = true := by
    intro size h
    have h1 := blockSpan_exact size h
    refine ⟨h1, ?_⟩
    unfold blockAssertion
    rw [h1]
    have h2 := (blockCount_bounds size).1
    unfold superpixelDim
    exact decide_eq_true (by exact_mod_cast h2)
  refine ⟨blockCount_ceil cols, blockCount_ceil rows, by omega, by omega, ?_, ?_,
    hassert cols, hassert rows⟩ <;> unfold superpixelDim <;> omega

/-- Instance of C21 for a 10 x 7 image (3 x 2 blocks) and at the largest
width for which the product is exact. -/
theorem block_grid_covers_image_witness :
    blockCount 10 = 3 ∧ blockCount 7 = 2 ∧
    (blockCount 10 - 1) * superpixelDim < 10 ∧ (blockCount 7 - 1) * superpixelDim < 7 ∧
    blockAssertion 10 = true ∧ blockAssertion 7 = true ∧
    blockAssertion 2147483644 = true :=
  ⟨by decide, by decide,
   (block_grid_covers_image 10 7 (by decide) (by decide)).2.2.2.2.1 (by decide),
   (block_grid_covers_image 10 7 (by decide) (by decide)).2.2.2.2.2.1 (by decide),
   ((block_grid_covers_image 10 7 (by decide) (by decide)).2.2.2.2.2.2.1 (by decide)).2,
   ((block_grid_covers_image 10 7 (by decide) (by decide)).2.2.2.2.2.2.2 (by decide)).2,
   ((block_grid_covers_image 2147483644 7 (by decide) (by decide)).2.2.2.2.2.2.1 (by decide)).2⟩

theorem blockTagsImg_get (rows cols y x : Nat) (hy : y < rows) (hx : x < cols) :
    (blockTagsImg rows cols).get y x =
      PixelToVec3b (blockTagExpr (blockCount cols) y x % 2 ^ 32) := by
  have hgen : ∀ (l : List Point) (m : Mat Vec3b),
      (l.foldl (fun tagsImg p =>
        tagsImg.put p.y p.x (PixelToVec3b (blockTagExpr (blockCount cols) p.y p.x % 2 ^ 32)))
        m).get y x =
      if Point.mk x y ∈ l then PixelToVec3b (blockTagExpr (blockCount cols) y x % 2 ^ 32)
      else m.get y x := by
    intro l
    induction l using List.reverseRecOn with
    | nil => intro m; simp
    | append_singleton l p ih =>
      intro m
      rw [List.foldl_append, List.foldl_cons, List.foldl_nil, Mat.get_put, ih]
      by_cases hp : y = p.y ∧ x = p.x
      · obtain ⟨rfl, rfl⟩ := hp
        simp
      · have hne : Point.mk x y ≠ p := by
          intro h
          apply hp
          rw [← h]
          exact ⟨rfl, rfl⟩
        simp [hp, hne]
  unfold blockTagsImg
  exact (hgen _ _).trans (if_pos (mem_scanOrder.mpr ⟨hy, hx⟩))

theorem blockTagExpr_spec (rows cols y x : Nat) (hy : y < rows) (hx : x < cols) :
    x / 4 < blockCount cols ∧ y / 4 < blockCount rows ∧
    blockTagExpr (blockCount cols) y x = y / 4 * blockCount cols + x / 4 ∧
    blockTagExpr (blockCount cols) y x < blockCount cols * blockCount rows := by
  have hc := blockCount_bounds cols
  have hr := blockCount_bounds rows
  have h1 : x / 4 < blockCount cols := by omega
  have h2 : y / 4 < blockCount rows := by omega
  have h3 : blockTagExpr (blockCount cols) y x = y / 4 * blockCount cols + x / 4 := by
    unfold blockTagExpr
    simp only [Nat.shiftRight_eq_div_pow]
  refine ⟨h1, h2, h3, ?_⟩
  rw [h3]
  calc y / 4 * blockCount cols + x / 4
      < y / 4 * blockCount cols + blockCount cols := by omega
    _ = (y / 4 + 1) * blockCount cols := by ring
    _ ≤ blockCount rows * blockCount cols := Nat.mul_le_mul_right _ h2
    _ = blockCount cols * blockCount rows := Nat.mul_comm _ _

theorem blockTagExpr_eq_iff (rows cols y1 x1 y2 x2 : Nat) (hy1 : y1 < rows) (hx1 : x1 < cols)
    (hy2 : y2 < rows) (hx2 : x2 < cols) :
    blockTagExpr (blockCount cols) y1 x1 = blockTagExpr (blockCount cols) y2 x2 ↔
      x1 / 4 = x2 / 4 ∧ y1 / 4 = y2 / 4 := by
  obtain ⟨a1, _, a3, _⟩ := blockTagExpr_spec rows cols y1 x1 hy1 hx1
  obtain ⟨b1, _, b3, _⟩ := blockTagExpr_spec rows cols y2 x2 hy2 hx2
  rw [a3, b3]
  constructor
  · intro h
    have hpos : 0 < blockCount cols := by omega
    have hd1 : (y1 / 4 * blockCount cols + x1 / 4) / blockCount cols = y1 / 4 := by
      rw [Nat.add_comm, Nat.add_mul_div_right _ _ hpos, Nat.div_eq_of_lt a1, Nat.zero_add]
    have hd2 : (y2 / 4 * blockCount cols + x2 / 4) / blockCount cols = y2 / 4 := by
      rw [Nat.add_comm, Nat.add_mul_div_right _ _ hpos, Nat.div_eq_of_lt b1, Nat.zero_add]
    have hy : y1 / 4 = y2 / 4 := by rw [← hd1, ← hd2, h]
    rw [hy] at h
    exact ⟨by omega, hy⟩
  · rintro ⟨hx, hy⟩
    rw [hx, hy]

/-- C22 (one tag per 4 x 4 block).  In the initial tags raster, for in-bounds
pixels: the tag `(y >> 2) * blockWidth + (x >> 2)` lies in
`[0, blockWidth * blockHeight)`, and two pixels receive the same tag if and
only if `x / 4` and `y / 4` both agree.  Provided
`blockWidth * blockHeight <= 2^24`, the tag decoded (`Vec3BToUID`) from the
colour stored in `tagsImg` is that same tag, so both properties hold for the
decoded tags too. -/
theorem one_tag_per_block (rows cols : Nat) :
    (∀ y x, y < rows → x < cols →
      blockTagExpr (blockCount cols) y x < blockCount cols * blockCount rows) ∧
    (∀ y1 x1 y2 x2, y1 < rows → x1 < cols → y2 < rows → x2 < cols →
      (blockTagExpr (blockCount cols) y1 x1 = blockTagExpr (blockCount cols) y2 x2 ↔
        x1 / 4 = x2 / 4 ∧ y1 / 4 = y2 / 4)) ∧
    (blockCount cols * blockCount rows ≤ 2 ^ 24 →
      (∀ y x, y < rows → x < cols →
        Vec3BToUID ((blockTagsImg rows cols).get y x) =
          ((blockTagExpr (blockCount cols) y x : Nat) : Int) ∧
        Vec3BToUID ((blockTagsImg rows cols).get y x) <
          ((blockCount cols * blockCount rows : Nat) : Int)) ∧
      (∀ y1 x1 y2 x2, y1 < rows → x1 < cols → y2 < rows → x2 < cols →
        (Vec3BToUID ((blockTagsImg rows cols).get y1 x1) =
            Vec3BToUID ((blockTagsImg rows cols).get y2 x2) ↔
          x1 / 4 = x2 / 4 ∧ y1 / 4 = y2 / 4))) := by
  have hdec : blockCount cols * blockCount rows ≤ 2 ^ 24 → ∀ y x, y < rows → x < cols →
      Vec3BToUID ((blockTagsImg rows cols).get y x) =
        ((blockTagExpr (blockCount cols) y x : Nat) : Int) := by
    intro hsmall y x hy hx
    have hlt := (blockTagExpr_spec rows cols y x hy hx).2.2.2
    rw [blockTagsImg_get rows cols y x hy hx]
    obtain ⟨h0, h1, h2⟩ := PixelToVec3b_vals (blockTagExpr (blockCount cols) y x % 2 ^ 32)
    rw [Vec3BToUID_eq, h0, h1, h2]
    congr 1
    omega
  refine ⟨fun y x hy hx => (blockTagExpr_spec rows cols y x hy hx).2.2.2,
    fun y1 x1 y2 x2 h1 h2 h3 h4 => blockTagExpr_eq_iff rows cols y1 x1 y2 x2 h1 h2 h3 h4,
    fun hsmall => ⟨fun y x hy hx => ⟨hdec hsmall y x hy hx, ?_⟩,
      fun y1 x1 y2 x2 h1 h2 h3 h4 => ?_⟩⟩
  · rw [hdec hsmall y x hy hx]
    exact_mod_cast (blockTagExpr_spec rows cols y x hy hx).2.2.2
  · rw [hdec hsmall y1 x1 h1 h2, hdec hsmall y2 x2 h3 h4]
    rw [← blockTagExpr_eq_iff rows cols y1 x1 y2 x2 h1 h2 h3 h4]
    exact Nat.cast_inj

/-- Instance of C22 for a 5 x 6 image (2 x 2 blocks): pixel `(x, y) = (5, 4)`
lies in the last block and its stored colour decodes to tag 3, below 4; the
pixels `(0, 0)` and `(3, 3)` share block 0. -/
theorem one_tag_per_block_witness :
    Vec3BToUID ((blockTagsImg 5 6).get 4 5) = 3 ∧
    Vec3BToUID ((blockTagsImg 5 6).get 4 5) < ((blockCount 6 * blockCount 5 : Nat) : Int) ∧
    blockTagExpr (blockCount 6) 4 5 < blockCount 6 * blockCount 5 ∧
    Vec3BToUID ((blockTagsImg 5 6).get 0 0) = Vec3BToUID ((blockTagsImg 5 6).get 3 3) :=
  ⟨by decide,
   (((one_tag_per_block 5 6).2.2 (by decide)).1 4 5 (by decide) (by decide)).2,
   (one_tag_per_block 5 6).1 4 5 (by decide) (by decide),
   (((one_tag_per_block 5 6).2.2 (by decide)).2 0 0 3 3 (by decide) (by decide) (by decide)
    (by decide)).mpr ⟨by decide, by decide⟩⟩

/-! ## Claims on the count table and on the expanding region of interest -/

/-- C23 (quantized-colour histogram), evaluated at the failing input
`outPixels = [7, 7, 9, 7]`, `numPixels = 4`: the colour 7 occurs at three
indices, but the loop of lines 605-608 advances `i` twice per iteration and
reads the indices 0 and 2 only, so the table holds 1 for colour 7 and 1 for
colour 9, and the counts sum to 2 instead of 4.  A larger iteration bound gives
the same table. -/
theorem quant_count_misses_odd_indices :
    quantCountTable [7, 7, 9, 7] 4 7 = 1 ∧
    quantCountTable [7, 7, 9, 7] 4 9 = 1 ∧
    List.count 7 [7, 7, 9, 7] = 3 ∧
    quantCountTable [7, 7, 9, 7] 4 7 + quantCountTable [7, 7, 9, 7] 4 9 = 2 ∧
    countQuantLoop [7, 7, 9, 7] 4 10 0 (fun _ => 0) 7 = 1 ∧
    countQuantLoop [7, 7, 9, 7] 4 10 0 (fun _ => 0) 9 = 1 := by
  decide

/-- C27 (expanded ROI stays inside the image), evaluated at the failing input:
image 20 x 20, region centre `(18, 10)` inside the image, bounding box 4 x 4,
`expandStep = 1`.  The rectangle `(15, 7, 6, 6)` passes the four guards, but
`expandedX + expandedWidth = 21` exceeds `cols = 20`, so the crop
`inputImg(expandedRoi)` is out of bounds and the loop stops there with a failed
assertion. -/
theorem expanded_roi_leaves_image :
    expandedRoi 20 20 18 10 4 4 1 = some (Rect.mk 15 7 6 6) ∧
    ¬ ((15 : Int) + 6 ≤ 20) ∧
    (Rect.mk 15 7 6 6).isInside 20 20 = false ∧
    (expandRoiLoop 20 20 18 10 4 4 [1, 2, 3, 4, 5, 6, 7] []).isFinished = false := by
  decide

/-! ## The accumulation copies `srmTags` -/

theorem commitAt_copyOk {σ : Type} (srmTags : Mat Vec3b) (st : Accum σ) (p : Point)
    (h : CopyOk srmTags st) : CopyOk srmTags (commitAt srmTags st p).state := by
  rw [commitAt_eq]
  by_cases hu : isUnset (st.mergeMat.get p.y p.x) = true
  · rw [if_pos hu]
    intro y x
    show (st.mergeMat.put p.y p.x (srmTags.get p.y p.x)).get y x = _ ∨
      (st.mergeMat.put p.y p.x (srmTags.get p.y p.x)).get y x = _
    rw [Mat.get_put]
    by_cases hp : y = p.y ∧ x = p.x
    · obtain ⟨rfl, rfl⟩ := hp
      rw [if_pos ⟨rfl, rfl⟩]
      exact Or.inr rfl
    · rw [if_neg hp]
      exact h y x
  · rw [if_neg hu]
    exact h

theorem perTagStep_copyOk {σ : Type} (capture : CaptureRegionMask σ) (srmTags : Mat Vec3b)
    (st : Accum σ) (tag : Int) (h : CopyOk srmTags st) :
    CopyOk srmTags (perTagStep capture srmTags st tag).state := by
  have h1 : CopyOk srmTags (afterCapture capture st tag).2 := h
  unfold perTagStep
  by_cases hw : (afterCapture capture st tag).1 = true
  · simp only [hw, if_true]
    unfold commitLocations
    exact forEach_preserves (commitAt srmTags) (CopyOk srmTags) _
      (fun a p _ ha => commitAt_copyOk srmTags a p ha) _ h1
  · simp only [hw]
    exact h1

theorem walkTags_copyOk {σ : Type} (capture : CaptureRegionMask σ) (srmTags : Mat Vec3b)
    (st : Accum σ) (order : List Int) (h : CopyOk srmTags st) :
    CopyOk srmTags (walkTags capture srmTags st order).state := by
  unfold walkTags
  exact forEach_preserves (perTagStep capture srmTags) (CopyOk srmTags) _
    (fun a tag _ ha => perTagStep_copyOk capture srmTags a tag ha) _ h

theorem initialAccum_copyOk {σ : Type} (srmTags : Mat Vec3b) (rows cols : Nat)
    (garbage : Nat → Nat → UChar) (env : σ) :
    CopyOk srmTags (initialAccum rows cols garbage env) :=
  fun _ _ => Or.inl rfl

/-- C24 (the accumulation is a pixel-wise copy).  For every capture
collaborator (so every sequence of capture results), every tag order and every
initial mask contents, starting from the initial state of an image of the size
of `srmTags`: after any part of the walk, every composite pixel that is not
`(0, 0, 0)` equals `srmTags` at the same coordinate; and if the accumulation
(walk and backfill) finishes without a failed assertion, the final composite
equals `srmTags` pixel for pixel. -/
theorem accumulation_is_pixelwise_copy {σ : Type} (capture : CaptureRegionMask σ)
    (srmTags : Mat Vec3b) (garbage : Nat → Nat → UChar) (env : σ)
    (srmInsideOutOrder : List Int) :
    (∀ y x,
      (walkTags capture srmTags (initialAccum srmTags.rows srmTags.cols garbage env)
        srmInsideOutOrder).state.mergeMat.get y x ≠ Vec3b.mk 0 0 0 →
      (walkTags capture srmTags (initialAccum srmTags.rows srmTags.cols garbage env)
        srmInsideOutOrder).state.mergeMat.get y x = srmTags.get y x) ∧
    ((accumulate capture srmTags srmTags.rows srmTags.cols garbage env
        srmInsideOutOrder).isFinished = true →
      ∀ y x, y < srmTags.rows → x < srmTags.cols →
        (accumulate capture srmTags srmTags.rows srmTags.cols garbage env
          srmInsideOutOrder).state.mergeMat.get y x = srmTags.get y x) := by
  have hinv := walkTags_copyOk capture srmTags
    (initialAccum srmTags.rows srmTags.cols garbage env) srmInsideOutOrder
    (initialAccum_copyOk srmTags _ _ garbage env)
  refine ⟨fun y x hne => (hinv y x).resolve_left hne, ?_⟩
  unfold accumulate accumulateFrom
  cases hr : walkTags capture srmTags (initialAccum srmTags.rows srmTags.cols garbage env)
      srmInsideOutOrder with
  | finished st1 =>
    rw [hr] at hinv
    intro _ y x hy hx
    show (backfillState srmTags st1).mergeMat.get y x = srmTags.get y x
    unfold backfillState
    rw [backfillState_foldl]
    by_cases hu : isUnset (st1.mergeMat.get y x) = true
    · rw [if_pos ⟨mem_scanOrder.mpr ⟨hy, hx⟩, hu⟩]
    · rw [if_neg (fun h => hu h.2)]
      exact (hinv y x).resolve_left (fun h => hu ((isUnset_iff_eq _).mpr h))
  | assertFailed st1 =>
    intro hfin
    exact absurd hfin (by simp [Outcome.isFinished])

/-- Instance of C24 on `demoTags`: the collaborator captures everything in the
first step and nothing new in the second, the accumulation finishes, and the
composite equals `srmTags`. -/
theorem accumulation_is_pixelwise_copy_witness :
    (accumulate captureUncommitted demoTags demoTags.rows demoTags.cols (fun _ _ => 7) ()
        [5, 6]).isFinished = true ∧
    ∀ y x, y < demoTags.rows → x < demoTags.cols →
      (accumulate captureUncommitted demoTags demoTags.rows demoTags.cols (fun _ _ => 7) ()
        [5, 6]).state.mergeMat.get y x = demoTags.get y x :=
  ⟨by decide,
   (accumulation_is_pixelwise_copy captureUncommitted demoTags (fun _ _ => 7) () [5, 6]).2
    (by decide)⟩

/-! ## When a per-tag step stops at the assertion -/

theorem perTagStep_aborts_iff {σ : Type} (capture : CaptureRegionMask σ) (srmTags : Mat Vec3b)
    (st : Accum σ) (tag : Int) :
    (perTagStep capture srmTags st tag).isFinished = false ↔
      (afterCapture capture st tag).1 = true ∧
      ∃ p ∈ findNonZero (afterCapture capture st tag).2.maskMat,
        st.mergeMat.get p.y p.x ≠ Vec3b.mk 0 0 0 := by
  by_cases hw : (afterCapture capture st tag).1 = true
  · have hstep : perTagStep capture srmTags st tag =
        commitLocations srmTags (afterCapture capture st tag).2
          (findNonZero (afterCapture capture st tag).2.maskMat) := by
      unfold perTagStep
      simp only [hw, if_true]
    constructor
    · intro hfin
      refine ⟨hw, ?_⟩
      by_contra hno
      have hfree : ∀ q ∈ findNonZero (afterCapture capture st tag).2.maskMat,
          st.mergeMat.get q.y q.x = Vec3b.mk 0 0 0 := by
        intro q hq
        by_contra hne
        exact hno ⟨q, hq, hne⟩
      obtain ⟨st1, h1, _⟩ := commitLocations_finishes srmTags _ (findNonZero_nodup _)
        (afterCapture capture st tag).2 hfree
      rw [hstep, h1] at hfin
      simp [Outcome.isFinished] at hfin
    · rintro ⟨_, p, hp, hne⟩
      obtain ⟨st1, h1, _⟩ := commitLocations_aborts srmTags _ (afterCapture capture st tag).2
        p hp hne
      rw [hstep, h1]
      rfl
  · constructor
    · intro hfin
      have hstep : perTagStep capture srmTags st tag = .finished (afterCapture capture st tag).2 := by
        unfold perTagStep
        simp only [hw]
        rfl
      rw [hstep] at hfin
      simp [Outcome.isFinished] at hfin
    · rintro ⟨h, _⟩
      exact absurd h hw

/-- C25 (the double-write assertion fires on any committed pixel).  With
`allowReplaceWithSameTag` false, a per-tag step stops at the assertion if and
only if the capture succeeded and the captured mask is nonzero at some pixel
whose composite value is already other than `(0, 0, 0)`.  And in every state
reached by the walk from the initial state, whatever the collaborator and the
tag order, at every such pixel the tag found in the composite (`mergedTag`)
equals the tag of `srmTags` there (`toBeMergedTag`): every abort that can occur
is a same-tag conflict. -/
theorem abort_iff_committed_pixel_captured {σ : Type} (capture : CaptureRegionMask σ)
    (srmTags : Mat Vec3b) :
    (∀ (st : Accum σ) (tag : Int),
      (perTagStep capture srmTags st tag).isFinished = false ↔
        (afterCapture capture st tag).1 = true ∧
        ∃ p ∈ findNonZero (afterCapture capture st tag).2.maskMat,
          st.mergeMat.get p.y p.x ≠ Vec3b.mk 0 0 0) ∧
    (∀ (garbage : Nat → Nat → UChar) (env : σ) (visited : List Int) (p : Point),
      (walkTags capture srmTags (initialAccum srmTags.rows srmTags.cols garbage env)
        visited).state.mergeMat.get p.y p.x ≠ Vec3b.mk 0 0 0 →
      toUInt32 (Vec3BToUID ((walkTags capture srmTags
        (initialAccum srmTags.rows srmTags.cols garbage env) visited).state.mergeMat.get p.y p.x)) =
      toUInt32 (Vec3BToUID (srmTags.get p.y p.x))) := by
  refine ⟨fun st tag => perTagStep_aborts_iff capture srmTags st tag, ?_⟩
  intro garbage env visited p hne
  have hinv := walkTags_copyOk capture srmTags
    (initialAccum srmTags.rows srmTags.cols garbage env) visited
    (initialAccum_copyOk srmTags _ _ garbage env)
  rw [(hinv p.y p.x).resolve_left hne]

/-- Instance of C25 on `twoTags`: after a step that captured every pixel, a
second step that captures every pixel again stops at the assertion, and the
committed pixel `(1, 0)` holds the very tag that `srmTags` holds there. -/
theorem abort_iff_committed_pixel_captured_witness :
    (perTagStep captureEverything twoTags
      (walkTags captureEverything twoTags twoTagsStart [1]).state 2).isFinished = false ∧
    toUInt32 (Vec3BToUID ((walkTags captureEverything twoTags
      (initialAccum twoTags.rows twoTags.cols (fun _ _ => 0) ()) [1]).state.mergeMat.get 0 1)) =
    toUInt32 (Vec3BToUID (twoTags.get 0 1)) :=
  ⟨((abort_iff_committed_pixel_captured captureEverything twoTags).1
      (walkTags captureEverything twoTags twoTagsStart [1]).state 2).mpr
      ⟨rfl, Point.mk 1 0, by decide, by decide⟩,
   (abort_iff_committed_pixel_captured captureEverything twoTags).2 (fun _ _ => 0) () [1]
    (Point.mk 1 0) (by decide)⟩

/-! ## The re-parse decision -/

/-- C26 (the re-parse decision does not depend on the composite).  For fixed
rasters read by the two checksum loops, any two composites `mergeMat` lead to
the same branch of lines 425-437; both checksums are folds over `srmTags`, so
with `srmTags` unmodified they are equal, the skip branch is taken and
`spImage` is kept; in a whole run of the merge block the decision is always to
keep the graph parsed at the start, and a run of `clusteringCombine` never
re-parses. -/
theorem reparse_decision_ignores_composite {σ G : Type} (my_adler32 : Nat → List UChar → Nat)
    (parse : Mat Vec3b → Option G) (srmTags : Mat Vec3b) :
    (∀ (tagsBefore m1 m2 : Mat Vec3b) (spImage : G),
      (reparseIfChanged my_adler32 parse tagsBefore srmTags m1 spImage).isSkipped =
        (reparseIfChanged my_adler32 parse tagsBefore srmTags m2 spImage).isSkipped) ∧
    (∀ m1 m2 : Mat Vec3b,
      tagsAdlerAfterMerge my_adler32 srmTags m1 = tagsAdlerAfterMerge my_adler32 srmTags m2) ∧
    (∀ mergeMat : Mat Vec3b,
      tagsAdlerBeforeMerge my_adler32 srmTags = tagsAdlerAfterMerge my_adler32 srmTags mergeMat) ∧
    (∀ (mergeMat : Mat Vec3b) (spImage : G),
      reparseIfChanged my_adler32 parse srmTags srmTags mergeMat spImage = .skipped spImage) ∧
    (∀ (capture : CaptureRegionMask σ) (rows cols : Nat) (garbage : Nat → Nat → UChar) (env : σ)
        (srmInsideOutOrder : List Int) (spImage : G),
      mergeBlock my_adler32 parse capture srmTags rows cols garbage env srmInsideOutOrder
          spImage = none ∨
      ∃ mergeMat, mergeBlock my_adler32 parse capture srmTags rows cols garbage env
          srmInsideOutOrder spImage = some (mergeMat, .skipped spImage)) ∧
    (∀ (c : Collaborators σ G) (rows cols depth : Nat),
      CombineEvent.reparse ∉ (clusteringCombine c rows cols depth).events) := by
  have hskip : ∀ (a : Nat → List UChar → Nat) (ps : Mat Vec3b → Option G)
      (tags mergeMat : Mat Vec3b) (spImage : G),
      reparseIfChanged a ps tags tags mergeMat spImage = .skipped spImage := by
    intro a ps tags mergeMat spImage
    have heq : tagsAdlerBeforeMerge a tags = tagsAdlerAfterMerge a tags mergeMat := rfl
    unfold reparseIfChanged
    rw [if_pos heq]
  refine ⟨?_, fun _ _ => rfl, fun _ => rfl, hskip my_adler32 parse srmTags, ?_, ?_⟩
  · intro tagsBefore m1 m2 spImage
    have heq : tagsAdlerAfterMerge my_adler32 srmTags m1 =
        tagsAdlerAfterMerge my_adler32 srmTags m2 := rfl
    unfold reparseIfChanged
    rw [heq]
    by_cases h : tagsAdlerBeforeMerge my_adler32 tagsBefore =
        tagsAdlerAfterMerge my_adler32 srmTags m2
    · rw [if_pos h, if_pos h]
    · rw [if_neg h, if_neg h]
      cases parse m1 <;> cases parse m2 <;> rfl
  · intro capture rows cols garbage env order spImage
    unfold mergeBlock
    cases accumulate capture srmTags rows cols garbage env order with
    | finished st =>
      refine Or.inr ⟨st.mergeMat, ?_⟩
      simp only [hskip]
    | assertFailed st => exact Or.inl rfl
  · intro c rows cols depth
    unfold clusteringCombine
    cases c.srmMultiSegment with
    | none => simp
    | some srmTags0 =>
      simp only []
      cases c.parse srmTags0 with
      | none => simp
      | some spImage =>
        simp only []
        cases insideOutOrder depth
            (c.recurseSuperpixelContainment spImage
              (c.fillMatrixWithSuperpixelTags spImage srmTags0)).1
            (c.recurseSuperpixelContainment spImage
              (c.fillMatrixWithSuperpixelTags spImage srmTags0)).2 with
        | none => simp
        | some order =>
          simp only []
          unfold mergeBlock
          cases accumulate c.captureRegionMask (c.fillMatrixWithSuperpixelTags spImage srmTags0)
              rows cols c.garbage (c.env spImage) order with
          | finished st =>
            simp only [hskip, finishCombine]
            simp
          | assertFailed st => simp

/-! ## The checksum short-circuit in a run of the merge block -/

theorem backfillStateAt_dims {σ : Type} (srmTags : Mat Vec3b) (st : Accum σ) (p : Point) :
    (backfillStateAt srmTags st p).mergeMat.rows = st.mergeMat.rows ∧
    (backfillStateAt srmTags st p).mergeMat.cols = st.mergeMat.cols := by
  unfold backfillStateAt
  simp only []
  split <;> exact ⟨rfl, rfl⟩

theorem accumulate_dims {σ : Type} (capture : CaptureRegionMask σ) (srmTags : Mat Vec3b)
    (rows cols : Nat) (garbage : Nat → Nat → UChar) (env : σ) (order : List Int) :
    (accumulate capture srmTags rows cols garbage env order).state.mergeMat.rows = rows ∧
    (accumulate capture srmTags rows cols garbage env order).state.mergeMat.cols = cols := by
  have hstep : ∀ (st : Accum σ) (tag : Int),
      st.mergeMat.rows = rows ∧ st.mergeMat.cols = cols →
      (perTagStep capture srmTags st tag).state.mergeMat.rows = rows ∧
      (perTagStep capture srmTags st tag).state.mergeMat.cols = cols := by
    intro st tag h
    have h1 : (afterCapture capture st tag).2.mergeMat.rows = rows ∧
        (afterCapture capture st tag).2.mergeMat.cols = cols := h
    unfold perTagStep
    by_cases hw : (afterCapture capture st tag).1 = true
    · simp only [hw, if_true]
      unfold commitLocations
      refine forEach_preserves (commitAt srmTags)
        (fun s => s.mergeMat.rows = rows ∧ s.mergeMat.cols = cols) _ ?_ _ h1
      intro a p _ ha
      obtain ⟨hr, hc⟩ := commitAt_dims srmTags a p
      exact ⟨hr.trans ha.1, hc.trans ha.2⟩
    · simp only [hw]
      exact h1
  have hw : (walkTags capture srmTags (initialAccum rows cols garbage env) order).state.mergeMat.rows
        = rows ∧
      (walkTags capture srmTags (initialAccum rows cols garbage env) order).state.mergeMat.cols
        = cols := by
    unfold walkTags
    exact forEach_preserves (perTagStep capture srmTags)
      (fun s => s.mergeMat.rows = rows ∧ s.mergeMat.cols = cols) _
      (fun a tag _ ha => hstep a tag ha) _ ⟨rfl, rfl⟩
  unfold accumulate accumulateFrom
  cases hr : walkTags capture srmTags (initialAccum rows cols garbage env) order with
  | finished st1 =>
    rw [hr] at hw
    show (backfillState srmTags st1).mergeMat.rows = rows ∧
      (backfillState srmTags st1).mergeMat.cols = cols
    unfold backfillState
    refine foldl_preserves (backfillStateAt srmTags)
      (fun s => s.mergeMat.rows = rows ∧ s.mergeMat.cols = cols) _ ?_ _ hw
    intro a p _ ha
    obtain ⟨h1, h2⟩ := backfillStateAt_dims srmTags a p
    exact ⟨h1.trans ha.1, h2.trans ha.2⟩
  | assertFailed st1 =>
    rw [hr] at hw
    exact hw

theorem accumulate_copies {σ : Type} (capture : CaptureRegionMask σ) (srmTags : Mat Vec3b)
    (garbage : Nat → Nat → UChar) (env : σ) (order : List Int)
    (hfin : (accumulate capture srmTags srmTags.rows srmTags.cols garbage env order).isFinished
      = true) (y x : Nat) (hy : y < srmTags.rows) (hx : x < srmTags.cols) :
    (accumulate capture srmTags srmTags.rows srmTags.cols garbage env order).state.mergeMat.get y x
      = srmTags.get y x := by
  have hinv := walkTags_copyOk capture srmTags
    (initialAccum srmTags.rows srmTags.cols garbage env) order
    (initialAccum_copyOk srmTags _ _ garbage env)
  revert hfin
  unfold accumulate accumulateFrom
  cases hr : walkTags capture srmTags (initialAccum srmTags.rows srmTags.cols garbage env)
      order with
  | finished st1 =>
    rw [hr] at hinv
    intro _
    show (backfillState srmTags st1).mergeMat.get y x = srmTags.get y x
    unfold backfillState
    rw [backfillState_foldl]
    by_cases hu : isUnset (st1.mergeMat.get y x) = true
    · rw [if_pos ⟨mem_scanOrder.mpr ⟨hy, hx⟩, hu⟩]
    · rw [if_neg (fun h => hu h.2)]
      exact (hinv y x).resolve_left (fun h => hu ((isUnset_iff_eq _).mpr h))
  | assertFailed st1 =>
    intro hfin
    exact absurd hfin (by simp [Outcome.isFinished])

theorem after_checksum_of_run {σ : Type} (my_adler32 : Nat → List UChar → Nat)
    (capture : CaptureRegionMask σ) (srmTags : Mat Vec3b)
    (garbage : Nat → Nat → UChar) (env : σ) (order : List Int)
    (hfin : (accumulate capture srmTags srmTags.rows srmTags.cols garbage env order).isFinished
      = true) :
    tagsAdlerAfterMerge my_adler32 srmTags
        (accumulate capture srmTags srmTags.rows srmTags.cols garbage env order).state.mergeMat =
      tagsAdler my_adler32
        (accumulate capture srmTags srmTags.rows srmTags.cols garbage env order).state.mergeMat := by
  obtain ⟨hr, hc⟩ := accumulate_dims capture srmTags srmTags.rows srmTags.cols garbage env order
  exact (tagsAdler_congr my_adler32 _ srmTags hr hc
    (fun y x hy hx => accumulate_copies capture srmTags garbage env order hfin y x hy hx)).symm

theorem mergeBlock_of_finished {σ G : Type} (my_adler32 : Nat → List UChar → Nat)
    (parse : Mat Vec3b → Option G) (capture : CaptureRegionMask σ) (srmTags : Mat Vec3b)
    (rows cols : Nat) (garbage : Nat → Nat → UChar) (env : σ) (order : List Int) (spImage : G)
    (hfin : (accumulate capture srmTags rows cols garbage env order).isFinished = true) :
    mergeBlock my_adler32 parse capture srmTags rows cols garbage env order spImage =
      some ((accumulate capture srmTags rows cols garbage env order).state.mergeMat,
        reparseIfChanged my_adler32 parse srmTags srmTags
          (accumulate capture srmTags rows cols garbage env order).state.mergeMat spImage) := by
  revert hfin
  unfold mergeBlock
  cases accumulate capture srmTags rows cols garbage env order with
  | finished st => intro _; rfl
  | assertFailed st => intro h; exact absurd h (by simp [Outcome.isFinished])

theorem reparseIfChanged_skipped_iff {G : Type} (my_adler32 : Nat → List UChar → Nat)
    (parse : Mat Vec3b → Option G) (tagsBefore srmTags mergeMat : Mat Vec3b) (spImage : G) :
    (reparseIfChanged my_adler32 parse tagsBefore srmTags mergeMat spImage).isSkipped = false ↔
      tagsAdlerBeforeMerge my_adler32 tagsBefore ≠
        tagsAdlerAfterMerge my_adler32 srmTags mergeMat := by
  unfold reparseIfChanged
  by_cases h : tagsAdlerBeforeMerge my_adler32 tagsBefore =
      tagsAdlerAfterMerge my_adler32 srmTags mergeMat
  · rw [if_pos h]
    simp [Reparse.isSkipped, h]
  · rw [if_neg h]
    cases parse mergeMat <;> simp [Reparse.isSkipped, h]

theorem reparseIfChanged_of_ne {G : Type} (my_adler32 : Nat → List UChar → Nat)
    (parse : Mat Vec3b → Option G) (tagsBefore srmTags mergeMat : Mat Vec3b) (spImage : G)
    (h : tagsAdlerBeforeMerge my_adler32 tagsBefore ≠
      tagsAdlerAfterMerge my_adler32 srmTags mergeMat) :
    reparseIfChanged my_adler32 parse tagsBefore srmTags mergeMat spImage =
      match parse mergeMat with
      | some fresh => .reparsed fresh
      | none => .parseFailed := by
  unfold reparseIfChanged
  simp only [if_neg h]

/-- C3 (checksum inputs).  Take any run of the merge block in which the
accumulation finishes, so that the second checksum loop is reached, whatever
the collaborators, the tag order and the checksum routine.  The "before"
checksum is the fold of the checksum routine, in scan order, over the tag
values of `srmTags`.  The "after" checksum computed by lines 413-421 equals the
same fold over the tag values of the composite `mergeMat` as it stands after
accumulation and backfill.  The merge block re-parses (calls the parser on the
composite) exactly when the two values differ, and it then hands the parser the
composite.  The last two statements hold for the comparison of lines 425-437
in any state whatever. -/
theorem after_checksum_is_over_composite {σ G : Type} (my_adler32 : Nat → List UChar → Nat)
    (parse : Mat Vec3b → Option G) (capture : CaptureRegionMask σ) (srmTags : Mat Vec3b)
    (garbage : Nat → Nat → UChar) (env : σ) (srmInsideOutOrder : List Int) (spImage : G)
    (hfin : (accumulate capture srmTags srmTags.rows srmTags.cols garbage env
      srmInsideOutOrder).isFinished = true) :
    tagsAdlerBeforeMerge my_adler32 srmTags = tagsAdler my_adler32 srmTags ∧
    tagsAdlerAfterMerge my_adler32 srmTags
        (accumulate capture srmTags srmTags.rows srmTags.cols garbage env
          srmInsideOutOrder).state.mergeMat =
      tagsAdler my_adler32
        (accumulate capture srmTags srmTags.rows srmTags.cols garbage env
          srmInsideOutOrder).state.mergeMat ∧
    (∃ r, mergeBlock my_adler32 parse capture srmTags srmTags.rows srmTags.cols garbage env
          srmInsideOutOrder spImage =
        some ((accumulate capture srmTags srmTags.rows srmTags.cols garbage env
          srmInsideOutOrder).state.mergeMat, r) ∧
      (r.isSkipped = false ↔
        tagsAdler my_adler32 srmTags ≠
          tagsAdler my_adler32
            (accumulate capture srmTags srmTags.rows srmTags.cols garbage env
              srmInsideOutOrder).state.mergeMat)) ∧
    (∀ (tagsBefore tags mergeMat : Mat Vec3b) (spImage1 : G),
      ((reparseIfChanged my_adler32 parse tagsBefore tags mergeMat spImage1).isSkipped = false ↔
        tagsAdlerBeforeMerge my_adler32 tagsBefore ≠
          tagsAdlerAfterMerge my_adler32 tags mergeMat) ∧
      (tagsAdlerBeforeMerge my_adler32 tagsBefore ≠
          tagsAdlerAfterMerge my_adler32 tags mergeMat →
        reparseIfChanged my_adler32 parse tagsBefore tags mergeMat spImage1 =
          match parse mergeMat with
          | some fresh => .reparsed fresh
          | none => .parseFailed)) := by
  have hafter := after_checksum_of_run my_adler32 capture srmTags garbage env srmInsideOutOrder hfin
  refine ⟨rfl, hafter, ⟨_, mergeBlock_of_finished my_adler32 parse capture srmTags _ _ garbage env
    srmInsideOutOrder spImage hfin, ?_⟩, fun tagsBefore tags mergeMat spImage1 =>
    ⟨reparseIfChanged_skipped_iff my_adler32 parse tagsBefore tags mergeMat spImage1,
     reparseIfChanged_of_ne my_adler32 parse tagsBefore tags mergeMat spImage1⟩⟩
  rw [reparseIfChanged_skipped_iff, hafter]
  rfl

/-- Instance of C3 on the 4 x 4 uniform raster with Adler-32: the accumulation
finishes, and the "after" checksum computed by the code is the Adler-32 fold
over the composite. -/
theorem after_checksum_is_over_composite_witness :
    (accumulate captureUncommitted uniformTags uniformTags.rows uniformTags.cols (fun _ _ => 0) ()
      [1]).isFinished = true ∧
    tagsAdlerAfterMerge adler32 uniformTags
        (accumulate captureUncommitted uniformTags uniformTags.rows uniformTags.cols
          (fun _ _ => 0) () [1]).state.mergeMat =
      tagsAdler adler32
        (accumulate captureUncommitted uniformTags uniformTags.rows uniformTags.cols
          (fun _ _ => 0) () [1]).state.mergeMat :=
  ⟨by set_option maxRecDepth 100000 in decide,
   (after_checksum_is_over_composite adler32 (fun _ => some (1 : Nat)) captureUncommitted
      uniformTags (fun _ _ => 0) () [1] 0
      (by set_option maxRecDepth 100000 in decide)).2.1⟩


end ClusteringSegmentation
